import Mathlib

/-!
# Fano coder (`src/fano/src/main.cpp`): shallow embedding and verified properties

The tool reads a stream of wide characters, counts them, assigns every distinct
character a binary code with a greedy approximation of Shannon-Fano coding,
packs the coded text into a bit field and, on decoding, walks the bit field
with a sorted code table.

Modelling conventions

* `wchar_t` values and `int` counters are integers (`Int`); the cost
  expression of `calculate_keys`, which the source narrows to `int`, wraps
  modulo `2^32`.  Occurrence counts are exact, that is, no character occurs
  `2^31` times or more.
* `std::string` codes are `List Char`, compared lexicographically like
  `std::string::operator<`.
* `nvx::BitField` is the list of its valid bits (`pushbit` appends, `operator[]`
  indexes, `bitsize` is the length); `nvx::archive` is the tuple of the values
  written to it.  Both headers are external to the repository.
* `std::sort` (which is not stable) and the iteration order of
  `std::unordered_map` are implementation-defined: they are the two fields of
  `Env`, constrained only by `Env.Conforming`.  `Env.ref` and `Env.rev` are two
  concrete conforming choices used to evaluate the program on concrete inputs.
* Output written to `wcout` before an exception stays written, so a run of
  `decode` is a pair of the emitted symbols and a final `Status`.

The run-length coder of `src/rle/src/main.cpp` is embedded after the Fano
coder, in the namespace `Rle`.
-/

namespace Fano

/-! ## Data model -/

/-- Format magic: `constexpr unsigned int const CONTROL_NUMBER = 3247928473u`. -/
def CONTROL_NUMBER : Nat := 3247928473

/-- Wide character code points. -/
abbrev wchar_t := Int

/-- One table entry: `struct item_t { string key; wchar_t ch; int c; }`. -/
structure item_t where
  key : List Char
  ch : wchar_t
  c : Int
deriving DecidableEq, Repr

instance : Inhabited item_t := ⟨⟨[], 0, 0⟩⟩

/-- Lexicographic order of `std::string::operator<`: the first differing
character decides, a proper prefix is smaller. -/
def strLt : List Char → List Char → Bool
  | [], [] => false
  | [], _ :: _ => true
  | _ :: _, [] => false
  | a :: as, b :: bs => if a < b then true else if b < a then false else strLt as bs

/-- Comparator `char_cmp`: `lhs.ch < rhs.ch`. -/
def char_cmp (lhs rhs : item_t) : Bool := decide (lhs.ch < rhs.ch)

/-- Comparator `key_cmp`: `lhs.key < rhs.key`. -/
def key_cmp (lhs rhs : item_t) : Bool := strLt lhs.key rhs.key

/-- Comparator `count_cmp`: `lhs.c < rhs.c`. -/
def count_cmp (lhs rhs : item_t) : Bool := decide (lhs.c < rhs.c)

/-! ## Implementation-defined library behaviour -/

/-- The two library behaviours the C++ standard leaves open: the result of
`std::sort` for a comparator, and the order in which an `unordered_map` is
iterated. -/
structure Env where
  sort : (item_t → item_t → Bool) → List item_t → List item_t
  iter : List (wchar_t × Int) → List (wchar_t × Int)

/-- A comparator is a strict weak ordering (asymmetric and negatively
transitive), the precondition of `std::sort` and `std::lower_bound`. -/
def StrictWeak (cmp : item_t → item_t → Bool) : Prop :=
  (∀ a b, cmp a b = true → cmp b a = false) ∧
  (∀ a b c, cmp a b = false → cmp b c = false → cmp a c = false)

/-- A list is ordered for a comparator: no later element is less than an
earlier one. -/
def SortedBy (cmp : item_t → item_t → Bool) (l : List item_t) : Prop :=
  l.Pairwise (fun a b => cmp b a = false)

/-- What the standard guarantees: for a strict weak ordering `std::sort`
permutes its range and leaves it ordered; iterating a map visits every entry
once. -/
def Env.Conforming (E : Env) : Prop :=
  (∀ cmp l, StrictWeak cmp → (E.sort cmp l).Perm l ∧ SortedBy cmp (E.sort cmp l)) ∧
  (∀ m, (E.iter m).Perm m)

/-- Insertion of one element into an ordered list, after the elements that
are smaller and before the others. -/
def insertBy (cmp : item_t → item_t → Bool) (x : item_t) : List item_t → List item_t
  | [] => [x]
  | y :: ys => if cmp y x then y :: insertBy cmp x ys else x :: y :: ys

/-- Insertion sort, the reference instance of `std::sort`. -/
def insertionSortBy (cmp : item_t → item_t → Bool) : List item_t → List item_t
  | [] => []
  | x :: xs => insertBy cmp x (insertionSortBy cmp xs)

/-- Reference environment: insertion sort, and map iteration in order of first
occurrence. -/
def Env.ref : Env := ⟨insertionSortBy, id⟩

/-- A second conforming environment: insertion sort, and map iteration in
reverse order of first occurrence. -/
def Env.rev : Env := ⟨insertionSortBy, List.reverse⟩

/-! ## `read_text` -/

/-- The statement `++syms[ch]` on the map kept as an association list. -/
def bump (ch : wchar_t) : List (wchar_t × Int) → List (wchar_t × Int)
  | [] => [(ch, 1)]
  | (k, n) :: rest => if k = ch then (k, n + 1) :: rest else (k, n) :: bump ch rest

/-- The map `syms` after the reading loop of `read_text`. -/
def countSyms (input : List wchar_t) : List (wchar_t × Int) :=
  input.foldl (fun m ch => bump ch m) []

/-- Function `read_text`: `data` is the whole input, `items` has one entry per
distinct character (in map iteration order) followed by the entry
`{ "", L'\0', 1 }`. -/
def read_text (E : Env) (input : List wchar_t) : List wchar_t × List item_t :=
  (input, (E.iter (countSyms input)).map (fun p => (⟨[], p.1, p.2⟩ : item_t)) ++ [⟨[], 0, 1⟩])

/-! ## `calculate_keys` -/

/-- Narrowing of an integer to a 32-bit `int`. -/
def wrapInt32 (z : Int) : Int := (z + 2147483648) % 4294967296 - 2147483648

/-- The value `bb->c + bb->key.size() * c` stored into an `int`. -/
def cost (p : item_t) (c : Int) : Int := wrapInt32 (p.c + (p.key.length : Int) * c)

/-- The inner loop of `calculate_keys` for the entry at position `i` whose
count is `c`: the position `min` of the first entry among `0 .. i-1` with the
least cost (`min` starts at `0` and moves only on a strictly smaller cost). -/
def findMin (items : List item_t) (i : Nat) (c : Int) : Nat :=
  ((List.range i).foldl
    (fun (acc : Nat × Int) bb =>
      if cost (items.getD bb default) c < acc.2 then (bb, cost (items.getD bb default) c) else acc)
    (0, cost (items.getD 0 default) c)).1

/-- One iteration of the outer loop for `b = items.begin() + i`:
`b->key = min->key + "1"; min->key.push_back('0')`. -/
def assignStep (items : List item_t) (i : Nat) : List item_t :=
  let b := items.getD i default
  let m := findMin items i b.c
  let minKey := (items.getD m default).key
  let items1 := items.set i { b with key := minKey ++ ['1'] }
  items1.set m { items1.getD m default with key := (items1.getD m default).key ++ ['0'] }

/-- Function `calculate_keys`. -/
def calculate_keys (E : Env) (items : List item_t) : List item_t :=
  if items.length < 2 then items
  else
    let s := (E.sort count_cmp items.reverse).reverse
    let s0 := s.set 0 { s.getD 0 default with key := ['0'] }
    let s1 := s0.set 1 { s0.getD 1 default with key := ['1'] }
    (List.range' 2 (s1.length - 2)).foldl assignStep s1

/-! ## `data2bitfield` and `encode` -/

/-- Function `std::lower_bound` on an ordered range: the position of the first
element `e` for which `cmp e v` is false, the length of the range if there is
none. -/
def lower_bound (cmp : item_t → item_t → Bool) : List item_t → item_t → Nat
  | [], _ => 0
  | e :: rest, v => if cmp e v then lower_bound cmp rest v + 1 else 0

/-- Bits pushed for a code: `*bb == '1' ? 1 : 0`. -/
def keyBits (key : List Char) : List Bool := key.map (fun ch => decide (ch = '1'))

/-- The lookup of `data2bitfield` for the character `t`: `none` stands for the
branch `it == items.end() or it->ch != *ch`. -/
def lookupSym (items : List item_t) (t : wchar_t) : Option item_t :=
  match items[lower_bound char_cmp items ⟨[], t, 0⟩]? with
  | none => none
  | some it => if it.ch ≠ t then none else some it

/-- The loop of `data2bitfield` over the remaining characters. -/
def packLoop (items : List item_t) : List wchar_t → List Bool → Except String (List Bool)
  | [], bits => .ok bits
  | t :: rest, bits =>
    match lookupSym items t with
    | none => .error "Unknown symbol"
    | some it => packLoop items rest (bits ++ keyBits it.key)

/-- Function `data2bitfield`: sorts the table by character and packs the code of
every character of `data` and then the code found for `L'\0'` (the
iterator runs one position past the end of `data`, where the character read
is the terminating null). Returns the re-ordered table and the bits. -/
def data2bitfield (E : Env) (data : List wchar_t) (items : List item_t) :
    Except String (List item_t × List Bool) :=
  let sorted := E.sort char_cmp items
  match packLoop sorted (data ++ [0]) [] with
  | .error e => .error e
  | .ok bits => .ok (sorted, bits)

/-- Function `encode`: the three values written to the archive. -/
def encode (E : Env) (input : List wchar_t) : Except String (Nat × List item_t × List Bool) :=
  let (data, items) := read_text E input
  match data2bitfield E data (calculate_keys E items) with
  | .error e => .error e
  | .ok (items2, bits) => .ok (CONTROL_NUMBER, items2, bits)

/-! ## `decode` -/

/-- How a run of `decode` ends: normal return, a thrown message, or the
dereference of `items.end()` (undefined behaviour). -/
inductive Status where
  | done
  | thrown (msg : String)
  | undefined
deriving DecidableEq, Repr

/-- The character appended to the candidate code: `bits[bitn] ? '1' : '0'`. -/
def bitChar (b : Bool) : Char := if b then '1' else '0'

/-- The nested loops of `decode` as one pass over the remaining bits.  The
state is the candidate `key` and the output so far; `key = []` is the head of
the outer `while`, a non-empty `key` is inside the `do ... while`.
Running out of bits at the head of the outer loop returns normally; inside
the inner loop it throws `"Decode error"`. -/
def decodeLoop (items : List item_t) : List Char → List wchar_t → List Bool → List wchar_t × Status
  | key, out, [] => if key = [] then (out, .done) else (out, .thrown "Decode error")
  | key, out, b :: rest =>
    match items[lower_bound key_cmp items ⟨key ++ [bitChar b], 0, 0⟩]? with
    | none => (out, .undefined)
    | some it =>
      if it.key ≠ key ++ [bitChar b] then decodeLoop items (key ++ [bitChar b]) out rest
      else if it.ch = 0 then (out, .done)
      else decodeLoop items [] (out ++ [it.ch]) rest

/-- Function `decode` on the three values read from the archive. -/
def decode (E : Env) (contnum : Nat) (items : List item_t) (bits : List Bool) :
    List wchar_t × Status :=
  if contnum ≠ CONTROL_NUMBER then ([], .thrown "Decode error: fail check control number")
  else decodeLoop (E.sort key_cmp items) [] [] bits

/-! ## Predicates used in the statements -/

/-- The code stored at position `a` of a table. -/
def keyAt (l : List item_t) (a : Nat) : List Char := (l.getD a default).key

/-- A code made only of the characters `0` and `1`. -/
def BinaryKey (k : List Char) : Prop := ∀ x ∈ k, x = '0' ∨ x = '1'

/-- No entry of the table has a code that is a prefix of the code of another
entry (entries are taken by position). -/
def PrefixFree (l : List item_t) : Prop :=
  l.Pairwise (fun a b => ¬ a.key <+: b.key ∧ ¬ b.key <+: a.key)

/-- The (symbol, count) pair of an entry. -/
def symCount (e : item_t) : wchar_t × Int := (e.ch, e.c)

/-- Loop invariant of `calculate_keys`: the codes of the first `i` entries are
pairwise not prefixes of one another and are made of `0` and `1`. -/
def CodesUpTo (l : List item_t) (i : Nat) : Prop :=
  (∀ a b, a < i → b < i → a ≠ b → ¬ keyAt l a <+: keyAt l b) ∧
  (∀ a, a < i → BinaryKey (keyAt l a))

/-- The code that `data2bitfield` packs for the character `t` with the table
`items` (ordered by character): the code of the entry its lookup finds. -/
def codeOf (items : List item_t) (t : wchar_t) : List Char :=
  ((lookupSym items t).getD default).key

/-- A table as `calculate_keys` leaves it from two entries on: codes are
prefix-free, non-empty and made of `0` and `1`. -/
def GoodCodes (l : List item_t) : Prop :=
  PrefixFree l ∧ (∀ e ∈ l, BinaryKey e.key) ∧ (∀ e ∈ l, e.key ≠ [])

/-- The lookup of `decode` for the candidate code `k` ends the inner loop:
`lower_bound` lands on an entry of the table whose code is `k`
(`it->key == key`). -/
def Matched (tbl : List item_t) (k : List Char) : Prop :=
  ∃ it, tbl[lower_bound key_cmp tbl ⟨k, 0, 0⟩]? = some it ∧ it.key = k

/-- The entry `e` is what one pass of the inner loop of `decode` finds when it
reads the code of `e`: the code is not empty, the lookup of the whole code
lands on `e`, and the lookup of no shorter non-empty part of the code ends the
loop earlier. -/
def FirstCode (tbl : List item_t) (e : item_t) : Prop :=
  e.key ≠ [] ∧ tbl[lower_bound key_cmp tbl ⟨e.key, 0, 0⟩]? = some e ∧
  ∀ k, k ≠ [] → k <+: e.key → k ≠ e.key → ¬ Matched tbl k

/-- The table of `calculate_keys` when its loop starts: sorted by descending
count, with the codes `"0"` and `"1"` stored in the first two entries. -/
def seedKeys (E : Env) (items : List item_t) : List item_t :=
  ((E.sort count_cmp items.reverse).reverse.set 0
      { (E.sort count_cmp items.reverse).reverse.getD 0 default with key := ['0'] }).set 1
    { ((E.sort count_cmp items.reverse).reverse.set 0
        { (E.sort count_cmp items.reverse).reverse.getD 0 default with key := ['0'] }).getD 1
          default with key := ['1'] }

/-- A complete set of codes: every string of `0` and `1` starts a code of the
table or has a code of the table as an initial part. -/
def Complete (l : List item_t) : Prop :=
  ∀ w, BinaryKey w → ∃ e ∈ l, w <+: e.key ∨ e.key <+: w

/-- Completeness of the codes of the first `i` entries. -/
def CompleteUpTo (l : List item_t) (i : Nat) : Prop :=
  ∀ w, BinaryKey w → ∃ a, a < i ∧ (w <+: keyAt l a ∨ keyAt l a <+: w)

/-- The table of `calculate_keys` when the iteration of its loop for the
position `i` starts (the positions `2 .. i-1` have been processed). -/
def stateAt (E : Env) (items : List item_t) (i : Nat) : List item_t :=
  (List.range' 2 (i - 2)).foldl assignStep (seedKeys E items)

/-- The cost of the specification, `p.count + len(p.code) * e.count`, as an
integer without any narrowing. -/
def exactCost (p : item_t) (c : Int) : Int := p.c + (p.key.length : Int) * c

/-- The table of the worked example: counts `A:4`, `B:2`, `C:1` and the
sentinel, as `read_text` builds it for `A,A,A,A,B,B,C`. -/
def exampleTable : List item_t := [⟨[], 65, 4⟩, ⟨[], 66, 2⟩, ⟨[], 67, 1⟩, ⟨[], 0, 1⟩]

/-- The (count, code) pair of an entry. -/
def countKey (e : item_t) : Int × List Char := (e.c, e.key)

/-- The sum over the table of count times code length. -/
def weightedLength (l : List item_t) : Int :=
  (l.map (fun e => e.c * (e.key.length : Int))).sum

/-- Two tables agree on their counts everywhere and on their codes at the
positions below `i`. -/
def AgreeUpTo (l1 l2 : List item_t) (i : Nat) : Prop :=
  l1.length = l2.length ∧ l1.map (fun e => e.c) = l2.map (fun e => e.c) ∧
  ∀ a, a < i → keyAt l1 a = keyAt l2 a

end Fano

/-!
# Run-length coder (`src/rle/src/main.cpp`)

Bytes (`uint8_t`) are natural numbers; a byte read from a file is below 256.
The `int` counter of `rle_encode` is an integer and its conversions to
`uint8_t` reduce modulo 256.  Iterators into `src` are positions.
-/

namespace Rle

/-! ## `rle_encode` -/

/-- The variable `stage` of `rle_encode`: the characters `\0`, `r` and `u`. -/
inductive Stage where
  | start
  | r
  | u
deriving DecidableEq, Repr

/-- The local variables of `rle_encode` and the target vector. -/
structure EncState where
  ps : Nat
  count : Int
  stage : Stage
  target : List Nat
deriving DecidableEq, Repr

/-- Conversion `uint8_t(z)` of an `int`. -/
def toByte (z : Int) : Nat := (z % 256).toNat

/-- The exit of `case 'r'`: `target.push_back((1 << 7) | uint8_t(count - 2));
target.push_back(ps); count = 1; stage = 0`. -/
def emitRun (st : EncState) : EncState :=
  { st with
    target := st.target ++ [(128 ||| toByte (st.count - 2)) % 256, st.ps]
    count := 1
    stage := .start }

/-- The exit of `case 'u'` at position `b` (`cur` is `*b`, `none` when
`b == e`): the count is decremented when the current byte repeats the
previous one, the control byte `uint8_t(count - 1)` is pushed and `count`
bytes are copied from position `b - count - (b == e || count == 128 ? 0 : 1)`
of `src`; then either a new block starts or a run of two is open. -/
def emitLiteral (src : List Nat) (b : Nat) (cur : Option Nat) (st : EncState) : EncState :=
  let count := if cur = some st.ps then st.count - 1 else st.count
  let off : Int := if cur = none ∨ count = 128 then 0 else 1
  let target := st.target ++ [toByte (count - 1)] ++
    (src.drop ((b : Int) - count - off).toNat).take count.toNat
  if count = 128 then { st with target := target, stage := .start, count := 1 }
  else { st with target := target, stage := .r, count := 2 }

/-- The branch `case 'u'` at position `b`. -/
def caseU (src : List Nat) (b : Nat) (cur : Option Nat) (st : EncState) : EncState :=
  match cur with
  | some x =>
    if x ≠ st.ps ∧ st.count < 128 then { st with count := st.count + 1 }
    else emitLiteral src b cur st
  | none => emitLiteral src b cur st

/-- One iteration of the `for` loop of `rle_encode` at position `b`: the
`switch` (with the `goto switch_again` of `case 0` at the end of the input
taken as the branch `case 'u'`), then `if (b != e) ps = *b`. -/
def encStep (src : List Nat) (b : Nat) (cur : Option Nat) (st : EncState) : EncState :=
  let st1 :=
    match st.stage with
    | .start =>
      match cur with
      | none => caseU src b none { st with stage := .u }
      | some x => { st with count := st.count + 1, stage := if x = st.ps then .r else .u }
    | .r =>
      match cur with
      | some x =>
        if x = st.ps ∧ st.count < 129 then { st with count := st.count + 1 } else emitRun st
      | none => emitRun st
    | .u => caseU src b cur st
  match cur with
  | some x => { st1 with ps := x }
  | none => st1

/-- The `for` loop of `rle_encode` from position `b`, where `rest` is the part
of `src` from `b` on; the last iteration is the one with `b == e`. -/
def encLoop (src : List Nat) : Nat → List Nat → EncState → EncState
  | b, [], st => encStep src b none st
  | b, x :: rest, st => encLoop src (b + 1) rest (encStep src b (some x) st)

/-- Function `rle_encode`: the target vector it fills. -/
def rle_encode (src : List Nat) : List Nat :=
  match src with
  | [] => []
  | s0 :: rest => (encLoop src 1 rest ⟨s0, 1, .start, []⟩).target

/-! ## `rle_decode` -/

/-- Where the loops of `rle_decode` stand: before a control byte, before the
byte of a run of `count`, or inside a literal span with `count` bytes left. -/
inductive DecState where
  | ctl
  | run (count : Nat)
  | lit (count : Nat)
deriving DecidableEq, Repr

/-- The loops of `rle_decode` as one pass over the remaining bytes of `src`;
the result is the target vector, or the thrown message. -/
def decodeFrom : DecState → List Nat → List Nat → Except String (List Nat)
  | .ctl, [], target => .ok target
  | .ctl, c :: rest, target =>
    if c / 128 % 2 = 1 then decodeFrom (.run (c % 128 + 2)) rest target
    else decodeFrom (.lit (c % 128 + 1)) rest target
  | .run _, [], _ => .error "Decode error"
  | .run n, ch :: rest, target => decodeFrom .ctl rest (target ++ List.replicate n ch)
  | .lit _, [], _ => .error "Decode error"
  | .lit n, x :: rest, target =>
    if n - 1 = 0 then decodeFrom .ctl rest (target ++ [x])
    else decodeFrom (.lit (n - 1)) rest (target ++ [x])

/-- Function `rle_decode`, which appends to the target it is given. -/
def rle_decode (src target : List Nat) : Except String (List Nat) :=
  decodeFrom .ctl src target

/-! ## The documented format -/

/-- A block of the format described above `rle_encode`: a repeated run with
length field `k` and byte `c`, or a literal span with length field `k` and
its bytes. -/
inductive Block where
  | run (k : Nat) (c : Nat)
  | lit (k : Nat) (bytes : List Nat)
deriving DecidableEq, Repr

/-- A block is complete: the length field has 7 bits and a literal span holds
`k + 1` bytes. -/
def Block.complete : Block → Bool
  | .run k _ => decide (k < 128)
  | .lit k bytes => decide (k < 128) && decide (bytes.length = k + 1)

/-- The bytes of a block: control byte with top bit 1 and low bits `k`, then
the repeated byte; or control byte with top bit 0 and low bits `k`, then the
literal bytes. -/
def Block.encoded : Block → List Nat
  | .run k c => [128 + k, c]
  | .lit k bytes => k :: bytes

/-- What a block stands for: `k + 2` copies of the byte, or the literal
bytes. -/
def Block.decoded : Block → List Nat
  | .run k c => List.replicate (k + 2) c
  | .lit _ bytes => bytes

/-- Invariant of the loop of `rle_encode` when the iteration at position
`pre.length` starts: the target decodes to the part `done` of the input, the
`count` bytes after it are pending, the last of them is `ps`, and in a run
all of them equal `ps`. -/
def EncInv (src pre rest : List Nat) (st : EncState) : Prop :=
  src = pre ++ rest ∧
  ∃ done pending, pre = done ++ pending ∧ (pending.length : Int) = st.count ∧
    rle_decode st.target [] = .ok done ∧ pending.getLast? = some st.ps ∧
    match st.stage with
    | .start => st.count = 1
    | .r => 2 ≤ st.count ∧ st.count ≤ 129 ∧ pending = List.replicate pending.length st.ps
    | .u => 2 ≤ st.count ∧ st.count ≤ 128

end Rle

namespace Fano

/-! ## The order on codes -/

theorem strLt_irrefl (a : List Char) : strLt a a = false := by
  induction a with
  | nil => rfl
  | cons x xs ih => simp [strLt, ih]

theorem strLt_asymm : ∀ a b : List Char, strLt a b = true → strLt b a = false
  | [], [], h => by simp [strLt] at h
  | [], _ :: _, _ => by simp [strLt]
  | _ :: _, [], h => by simp [strLt] at h
  | x :: xs, y :: ys, h => by
    simp only [strLt] at h ⊢
    by_cases hxy : x < y
    · have hyx : ¬ y < x := lt_asymm hxy
      simp [hyx, hxy]
    · by_cases hyx : y < x
      · simp [hxy, hyx] at h
      · simp only [hxy, hyx, if_false] at h ⊢
        exact strLt_asymm xs ys h

theorem strLt_negtrans : ∀ a b c : List Char,
    strLt a b = false → strLt b c = false → strLt a c = false
  | [], [], c, _, h => h
  | [], _ :: _, _, h, _ => by simp [strLt] at h
  | _ :: _, _, [], _, _ => by simp [strLt]
  | _ :: _, [], _ :: _, _, h => by simp [strLt] at h
  | x :: xs, y :: ys, z :: zs, h1, h2 => by
    simp only [strLt] at h1 h2 ⊢
    by_cases hxy : x < y
    · simp [hxy] at h1
    by_cases hyz : y < z
    · simp [hyz] at h2
    simp only [hxy, hyz, if_false] at h1 h2
    have hxz : ¬ x < z := fun h => by
      rcases lt_trichotomy x y with h' | h' | h'
      · exact hxy h'
      · exact hyz (h' ▸ h)
      · exact hyz (lt_trans h' h)
    simp only [hxz, if_false]
    by_cases hyx : y < x
    · have hzx : z < x := by
        rcases lt_trichotomy z y with h' | h' | h'
        · exact lt_trans h' hyx
        · exact h' ▸ hyx
        · exact absurd h' hyz
      simp [hzx]
    · simp only [hyx, if_false] at h1
      by_cases hzy : z < y
      · have hzx : z < x := by
          rcases lt_trichotomy x y with h' | h' | h'
          · exact absurd h' hxy
          · exact h' ▸ hzy
          · exact absurd h' hyx
        simp [hzx]
      · simp only [hzy, if_false] at h2
        have hzx : ¬ z < x := fun h => by
          rcases lt_trichotomy x y with h' | h' | h'
          · exact hxy h'
          · exact hzy (h' ▸ h)
          · exact hyx h'
        simp only [hzx, if_false]
        exact strLt_negtrans xs ys zs h1 h2

theorem strLt_antisymm : ∀ a b : List Char, strLt a b = false → strLt b a = false → a = b
  | [], [], _, _ => rfl
  | [], _ :: _, h, _ => by simp [strLt] at h
  | _ :: _, [], _, h => by simp [strLt] at h
  | x :: xs, y :: ys, h1, h2 => by
    simp only [strLt] at h1 h2
    by_cases hxy : x < y
    · simp [hxy] at h1
    by_cases hyx : y < x
    · simp [hyx] at h2
    simp only [hxy, hyx, if_false] at h1 h2
    have hxe : x = y := by
      rcases lt_trichotomy x y with h' | h' | h'
      · exact absurd h' hxy
      · exact h'
      · exact absurd h' hyx
    rw [hxe, strLt_antisymm xs ys h1 h2]

/-- A code is never greater than one of its extensions. -/
theorem strLt_append_left (k s : List Char) : strLt (k ++ s) k = false := by
  induction k with
  | nil => cases s <;> simp [strLt]
  | cons x xs ih => simp [strLt, ih]

/-- A code lying between `k` and an extension of `k` extends `k`. -/
theorem prefix_of_between : ∀ (k s it : List Char),
    strLt it k = false → strLt (k ++ s) it = false → k <+: it
  | [], _, _, _, _ => List.nil_prefix
  | _ :: _, _, [], h, _ => by simp [strLt] at h
  | a :: k, s, b :: it, h1, h2 => by
    simp only [List.cons_append, strLt] at h1 h2
    by_cases hba : b < a
    · simp [hba] at h1
    by_cases hab : a < b
    · simp [hab] at h2
    simp only [hba, hab, if_false] at h1 h2
    have hxe : a = b := by
      rcases lt_trichotomy a b with h' | h' | h'
      · exact absurd h' hab
      · exact h'
      · exact absurd h' hba
    subst hxe
    exact (List.prefix_cons_inj a).mpr (prefix_of_between k s it h1 h2)

theorem key_cmp_strictWeak : StrictWeak key_cmp :=
  ⟨fun a b h => strLt_asymm a.key b.key h,
   fun a b c h1 h2 => strLt_negtrans a.key b.key c.key h1 h2⟩

theorem char_cmp_strictWeak : StrictWeak char_cmp := by
  constructor
  · intro a b h
    simp only [char_cmp, decide_eq_true_eq, decide_eq_false_iff_not] at h ⊢
    exact lt_asymm h
  · intro a b c h1 h2
    simp only [char_cmp, decide_eq_false_iff_not] at h1 h2 ⊢
    exact fun h => h1 (lt_of_lt_of_le h (not_lt.mp h2))

theorem count_cmp_strictWeak : StrictWeak count_cmp := by
  constructor
  · intro a b h
    simp only [count_cmp, decide_eq_true_eq, decide_eq_false_iff_not] at h ⊢
    omega
  · intro a b c h1 h2
    simp only [count_cmp, decide_eq_false_iff_not] at h1 h2 ⊢
    omega

/-! ## The reference environment conforms -/

theorem insertBy_perm (cmp : item_t → item_t → Bool) (x : item_t) (l : List item_t) :
    (insertBy cmp x l).Perm (x :: l) := by
  induction l with
  | nil => exact List.Perm.refl _
  | cons y ys ih =>
    simp only [insertBy]
    split
    · exact (List.Perm.cons y ih).trans (List.Perm.swap x y ys)
    · exact List.Perm.refl _

theorem insertionSortBy_perm (cmp : item_t → item_t → Bool) (l : List item_t) :
    (insertionSortBy cmp l).Perm l := by
  induction l with
  | nil => exact List.Perm.refl _
  | cons x xs ih => exact (insertBy_perm cmp x _).trans (List.Perm.cons x ih)

theorem insertBy_sorted (cmp : item_t → item_t → Bool) (hc : StrictWeak cmp) (x : item_t)
    (l : List item_t) (hl : SortedBy cmp l) : SortedBy cmp (insertBy cmp x l) := by
  induction l with
  | nil => simp [insertBy, SortedBy]
  | cons y ys ih =>
    unfold SortedBy at hl ih ⊢
    rw [List.pairwise_cons] at hl
    simp only [insertBy]
    by_cases hyx : cmp y x = true
    · simp only [hyx, if_true, List.pairwise_cons]
      refine ⟨fun b hb => ?_, ih hl.2⟩
      rcases List.mem_cons.mp ((insertBy_perm cmp x ys).mem_iff.mp hb) with h | h
      · exact h ▸ hc.1 y x hyx
      · exact hl.1 b h
    · simp only [Bool.not_eq_true] at hyx
      simp only [hyx, Bool.false_eq_true, if_false, List.pairwise_cons]
      refine ⟨fun b hb => ?_, hl⟩
      rcases List.mem_cons.mp hb with h | h
      · exact h ▸ hyx
      · exact hc.2 b y x (hl.1 b h) hyx

theorem insertionSortBy_sorted (cmp : item_t → item_t → Bool) (hc : StrictWeak cmp)
    (l : List item_t) : SortedBy cmp (insertionSortBy cmp l) := by
  induction l with
  | nil => simp [insertionSortBy, SortedBy]
  | cons x xs ih => exact insertBy_sorted cmp hc x _ ih

/-- The reference environment satisfies the library contract. -/
theorem Env.ref_conforming : Env.ref.Conforming :=
  ⟨fun cmp l hc => ⟨insertionSortBy_perm cmp l, insertionSortBy_sorted cmp hc l⟩,
    fun _ => List.Perm.refl _⟩

theorem Env.Conforming.sort_perm {E : Env} (hE : E.Conforming)
    {cmp : item_t → item_t → Bool} (hc : StrictWeak cmp) (l : List item_t) :
    (E.sort cmp l).Perm l :=
  (hE.1 cmp l hc).1

theorem Env.Conforming.sort_sorted {E : Env} (hE : E.Conforming)
    {cmp : item_t → item_t → Bool} (hc : StrictWeak cmp) (l : List item_t) :
    SortedBy cmp (E.sort cmp l) :=
  (hE.1 cmp l hc).2

theorem Env.Conforming.iter_perm {E : Env} (hE : E.Conforming) (m : List (wchar_t × Int)) :
    (E.iter m).Perm m :=
  hE.2 m

/-! ## `calculate_keys`: structure of one step -/

theorem findMin_fold_lt (items : List item_t) (c : Int) (i : Nat) :
    ∀ (L : List Nat) (acc : Nat × Int), (∀ x ∈ L, x < i) → acc.1 < i →
      (L.foldl
        (fun (acc : Nat × Int) bb =>
          if cost (items.getD bb default) c < acc.2 then (bb, cost (items.getD bb default) c)
          else acc) acc).1 < i
  | [], _, _, h => h
  | x :: L, acc, hL, h => by
    simp only [List.foldl_cons]
    apply findMin_fold_lt items c i L _ (fun y hy => hL y (List.mem_cons_of_mem _ hy))
    split
    · exact hL x (List.mem_cons_self _ _)
    · exact h

/-- The position chosen by the inner loop lies before the current entry. -/
theorem findMin_lt (items : List item_t) (i : Nat) (c : Int) (hi : 0 < i) :
    findMin items i c < i :=
  findMin_fold_lt items c i (List.range i) _ (fun _ hx => List.mem_range.mp hx) hi

theorem assignStep_length (l : List item_t) (i : Nat) : (assignStep l i).length = l.length := by
  simp [assignStep]

theorem assignStep_getElem? (l : List item_t) (i a : Nat) (hi : i < l.length) (h0 : 0 < i) :
    (assignStep l i)[a]? =
      if a = findMin l i (l.getD i default).c then
        some ⟨keyAt l (findMin l i (l.getD i default).c) ++ ['0'],
          (l.getD a default).ch, (l.getD a default).c⟩
      else if a = i then
        some ⟨keyAt l (findMin l i (l.getD i default).c) ++ ['1'],
          (l.getD a default).ch, (l.getD a default).c⟩
      else l[a]? := by
  have hm := findMin_lt l i (l.getD i default).c h0
  simp only [assignStep, keyAt]
  generalize findMin l i (l.getD i default).c = m at hm ⊢
  have hml : m < l.length := lt_trans hm hi
  have hne : i ≠ m := by omega
  simp only [List.getD_eq_getElem?_getD, List.getElem?_set, List.length_set]
  by_cases ham : a = m
  · subst ham
    simp [hml, hne, List.getElem?_eq_getElem hml]
  · by_cases hai : a = i
    · subst hai
      simp [hi, ham, Ne.symm ham, List.getElem?_eq_getElem hi]
    · simp [ham, hai, Ne.symm ham, Ne.symm hai]

theorem keyAt_assignStep (l : List item_t) (i a : Nat) (hi : i < l.length) (h0 : 0 < i) :
    keyAt (assignStep l i) a =
      if a = findMin l i (l.getD i default).c then
        keyAt l (findMin l i (l.getD i default).c) ++ ['0']
      else if a = i then keyAt l (findMin l i (l.getD i default).c) ++ ['1']
      else keyAt l a := by
  have hk : keyAt (assignStep l i) a = ((assignStep l i)[a]?.getD default).key := by
    simp [keyAt]
  rw [hk, assignStep_getElem? l i a hi h0]
  by_cases h1 : a = findMin l i (l.getD i default).c
  · rw [if_pos h1, if_pos h1]
    rfl
  · by_cases h2 : a = i
    · rw [if_neg h1, if_pos h2, if_neg h1, if_pos h2]
      rfl
    · rw [if_neg h1, if_neg h2, if_neg h1, if_neg h2]
      simp [keyAt]

theorem symCount_assignStep (l : List item_t) (i : Nat) (hi : i < l.length) (h0 : 0 < i) :
    (assignStep l i).map symCount = l.map symCount := by
  apply List.ext_getElem?
  intro a
  rw [List.getElem?_map, List.getElem?_map, assignStep_getElem? l i a hi h0]
  by_cases hal : a < l.length
  · simp only [List.getD_eq_getElem?_getD, List.getElem?_eq_getElem hal, Option.getD_some]
    split
    · rfl
    · split <;> rfl
  · have hn : l[a]? = none := List.getElem?_eq_none (by omega)
    have hm := findMin_lt l i (l.getD i default).c h0
    rw [if_neg (by omega), if_neg (by omega), hn]

/-! ## Prefix facts used by the invariant -/

theorem not_prefix_concat_left {x y : List Char} (c : Char) (h : ¬ x <+: y) :
    ¬ (x ++ [c]) <+: y :=
  fun h2 => h ((List.prefix_append x [c]).trans h2)

theorem not_prefix_concat_right {o x : List Char} (c : Char) (h1 : ¬ o <+: x) (h2 : ¬ x <+: o) :
    ¬ o <+: (x ++ [c]) := by
  intro h
  rcases List.prefix_concat_iff.mp h with h3 | h3
  · exact h2 (h3 ▸ List.prefix_append x [c])
  · exact h1 h3

theorem not_prefix_concat_ne (x : List Char) {c d : Char} (h : c ≠ d) :
    ¬ (x ++ [c]) <+: (x ++ [d]) := by
  intro h2
  have := h2.eq_of_length (by simp)
  simp at this
  exact h this

/-! ## `calculate_keys`: the loop invariant -/

theorem codesUpTo_assignStep (l : List item_t) (i : Nat) (hi : i < l.length) (h0 : 0 < i)
    (inv : CodesUpTo l i) : CodesUpTo (assignStep l i) (i + 1) := by
  have hm := findMin_lt l i (l.getD i default).c h0
  have hk := fun a => keyAt_assignStep l i a hi h0
  generalize findMin l i (l.getD i default).c = m at hm hk
  obtain ⟨hpf, hbin⟩ := inv
  have h01 : ('0' : Char) ≠ '1' := by decide
  constructor
  · intro a b ha hb hab
    rw [hk a, hk b]
    by_cases ham : a = m
    · rw [if_pos ham]
      by_cases hbi : b = i
      · rw [if_neg (by omega), if_pos hbi]
        exact not_prefix_concat_ne _ h01
      · rw [if_neg (by omega), if_neg hbi]
        exact not_prefix_concat_left _ (hpf m b hm (by omega) (by omega))
    · rw [if_neg ham]
      by_cases hai : a = i
      · rw [if_pos hai]
        by_cases hbm : b = m
        · rw [if_pos hbm]
          exact not_prefix_concat_ne _ (Ne.symm h01)
        · rw [if_neg hbm, if_neg (by omega)]
          exact not_prefix_concat_left _ (hpf m b hm (by omega) (by omega))
      · rw [if_neg hai]
        by_cases hbm : b = m
        · rw [if_pos hbm]
          exact not_prefix_concat_right _ (hpf a m (by omega) hm ham)
            (hpf m a hm (by omega) (Ne.symm ham))
        · rw [if_neg hbm]
          by_cases hbi : b = i
          · rw [if_pos hbi]
            exact not_prefix_concat_right _ (hpf a m (by omega) hm ham)
              (hpf m a hm (by omega) (Ne.symm ham))
          · rw [if_neg hbi]
            exact hpf a b (by omega) (by omega) hab
  · intro a ha
    rw [hk a]
    have hbm := hbin m hm
    split
    · intro x hx
      rcases List.mem_append.mp hx with h | h
      · exact hbm x h
      · exact Or.inl (List.mem_singleton.mp h)
    · split
      · intro x hx
        rcases List.mem_append.mp hx with h | h
        · exact hbm x h
        · exact Or.inr (List.mem_singleton.mp h)
      · exact hbin a (by omega)

theorem assignLoop_spec : ∀ (k : Nat) (l : List item_t) (i : Nat), 0 < i → i + k ≤ l.length →
    ((List.range' i k).foldl assignStep l).length = l.length ∧
    ((List.range' i k).foldl assignStep l).map symCount = l.map symCount ∧
    (CodesUpTo l i → CodesUpTo ((List.range' i k).foldl assignStep l) (i + k))
  | 0, l, i, _, _ => by simp
  | k + 1, l, i, h0, hik => by
    have hi : i < l.length := by omega
    have ih := assignLoop_spec k (assignStep l i) (i + 1) (by omega)
      (by rw [assignStep_length]; omega)
    simp only [List.range'_succ, List.foldl_cons]
    refine ⟨?_, ?_, ?_⟩
    · rw [ih.1, assignStep_length]
    · rw [ih.2.1, symCount_assignStep l i hi h0]
    · intro inv
      have := ih.2.2 (codesUpTo_assignStep l i hi h0 inv)
      rwa [show i + 1 + k = i + (k + 1) by omega] at this

theorem symCount_set_key (l : List item_t) (i : Nat) (k : List Char) :
    (l.set i { l.getD i default with key := k }).map symCount = l.map symCount := by
  apply List.ext_getElem?
  intro a
  rw [List.getElem?_map, List.getElem?_map, List.getElem?_set]
  by_cases hia : i = a
  · subst hia
    by_cases hi : i < l.length
    · simp [hi, List.getElem?_eq_getElem hi, symCount]
    · simp [hi, List.getElem?_eq_none (not_lt.mp hi)]
  · simp [hia]

theorem keyAt_set_key (l : List item_t) (i a : Nat) (k : List Char) (hi : i < l.length) :
    keyAt (l.set i { l.getD i default with key := k }) a = if a = i then k else keyAt l a := by
  simp only [keyAt, List.getD_eq_getElem?_getD, List.getElem?_set]
  by_cases hia : i = a
  · subst hia
    simp [hi]
  · simp [hia, Ne.symm hia]

/-- What `calculate_keys` does to a table: the length and the multiset of
(symbol, count) pairs are kept and, from two entries on, the loop invariant
holds for the whole table. -/
theorem calculate_keys_spec (E : Env) (hE : E.Conforming)
    (items : List item_t) :
    (calculate_keys E items).length = items.length ∧
    ((calculate_keys E items).map symCount).Perm (items.map symCount) ∧
    (2 ≤ items.length → CodesUpTo (calculate_keys E items) items.length) := by
  unfold calculate_keys
  by_cases hlen : items.length < 2
  · rw [if_pos hlen]
    exact ⟨rfl, List.Perm.refl _, fun h => absurd hlen (by omega)⟩
  · rw [if_neg hlen]
    simp only []
    have hperm : ((E.sort count_cmp items.reverse).reverse).Perm items :=
      (List.reverse_perm _).trans
        ((hE.sort_perm count_cmp_strictWeak _).trans (List.reverse_perm _))
    generalize (E.sort count_cmp items.reverse).reverse = s at hperm
    have hs : s.length = items.length := hperm.length_eq
    have hl0 : (s.set 0 { s.getD 0 default with key := ['0'] }).length = items.length := by
      rw [List.length_set, hs]
    generalize hs0 : s.set 0 { s.getD 0 default with key := ['0'] } = s0 at hl0
    have hl1 : (s0.set 1 { s0.getD 1 default with key := ['1'] }).length = items.length := by
      rw [List.length_set, hl0]
    have hsc : (s0.set 1 { s0.getD 1 default with key := ['1'] }).map symCount
        = s.map symCount := by
      rw [symCount_set_key, ← hs0, symCount_set_key]
    have hk1 : ∀ a, keyAt (s0.set 1 { s0.getD 1 default with key := ['1'] }) a
        = if a = 1 then ['1'] else if a = 0 then ['0'] else keyAt s a := by
      intro a
      rw [keyAt_set_key _ _ _ _ (by omega), ← hs0, keyAt_set_key _ _ _ _ (by omega)]
    generalize s0.set 1 { s0.getD 1 default with key := ['1'] } = s1 at hl1 hsc hk1
    have hloop := assignLoop_spec (s1.length - 2) s1 2 (by omega) (by omega)
    refine ⟨by rw [hloop.1, hl1], ?_, fun _ => ?_⟩
    · rw [hloop.2.1, hsc]
      exact hperm.map _
    · have := hloop.2.2 (by
        constructor
        · intro a b ha hb hab
          rw [hk1 a, hk1 b]
          have h2 : a = 0 ∧ b = 1 ∨ a = 1 ∧ b = 0 := by omega
          rcases h2 with ⟨h3, h4⟩ | ⟨h3, h4⟩ <;> subst h3 <;> subst h4 <;> simp
        · intro a ha
          rw [hk1 a]
          have h2 : a = 0 ∨ a = 1 := by omega
          rcases h2 with h3 | h3 <;> subst h3 <;> simp [BinaryKey])
      rwa [show 2 + (s1.length - 2) = items.length by omega] at this

theorem codesUpTo_length (l : List item_t) (h : CodesUpTo l l.length) :
    PrefixFree l ∧ ∀ e ∈ l, BinaryKey e.key := by
  constructor
  · unfold PrefixFree
    rw [List.pairwise_iff_getElem]
    intro a b ha hb hab
    have h1 := h.1 a b ha hb (by omega)
    have h2 := h.1 b a hb ha (by omega)
    simp only [keyAt, List.getD_eq_getElem?_getD, List.getElem?_eq_getElem ha,
      List.getElem?_eq_getElem hb, Option.getD_some] at h1 h2
    exact ⟨h1, h2⟩
  · intro e he
    obtain ⟨a, ha, rfl⟩ := List.getElem_of_mem he
    have h1 := h.2 a ha
    simpa only [keyAt, List.getD_eq_getElem?_getD, List.getElem?_eq_getElem ha,
      Option.getD_some] using h1

/-! ## `lower_bound` on an ordered table -/

theorem cmp_irrefl {cmp : item_t → item_t → Bool} (hc : StrictWeak cmp) (a : item_t) :
    cmp a a = false := by
  cases h : cmp a a
  · rfl
  · exact absurd (hc.1 a a h) (by simp [h])

/-- On an ordered table that holds an entry `e` not below the probe `v`,
`lower_bound` stops inside the table, at an entry that is not below `v` and
not above `e`. -/
theorem lower_bound_spec {cmp : item_t → item_t → Bool} (hc : StrictWeak cmp) (v e : item_t) :
    ∀ (l : List item_t), SortedBy cmp l → e ∈ l → cmp e v = false →
      ∃ it, l[lower_bound cmp l v]? = some it ∧ it ∈ l ∧ cmp it v = false ∧ cmp e it = false
  | [], _, he, _ => by simp at he
  | x :: rest, hs, he, hev => by
    unfold SortedBy at hs
    rw [List.pairwise_cons] at hs
    by_cases hx : cmp x v = true
    · have hne : e ≠ x := fun h => by rw [h, hx] at hev; exact Bool.noConfusion hev
      have her : e ∈ rest := by
        rcases List.mem_cons.mp he with h | h
        · exact absurd h hne
        · exact h
      obtain ⟨it, h1, h2, h3, h4⟩ := lower_bound_spec hc v e rest hs.2 her hev
      refine ⟨it, ?_, List.mem_cons_of_mem _ h2, h3, h4⟩
      simp only [lower_bound, hx, if_true, List.getElem?_cons_succ]
      exact h1
    · simp only [Bool.not_eq_true] at hx
      refine ⟨x, ?_, List.mem_cons_self _ _, hx, ?_⟩
      · simp [lower_bound, hx]
      · rcases List.mem_cons.mp he with h | h
        · rw [h]; exact cmp_irrefl hc x
        · exact hs.1 e h

/-! ## `data2bitfield`: the lookups succeed -/

theorem lookupSym_some {l : List item_t} {t : wchar_t} {it : item_t}
    (h : lookupSym l t = some it) : it ∈ l ∧ it.ch = t := by
  unfold lookupSym at h
  split at h
  · exact Option.noConfusion h
  · rename_i it2 hget
    split at h
    · exact Option.noConfusion h
    · rename_i hch
      simp only [Option.some.injEq] at h
      subst h
      exact ⟨List.getElem?_mem hget, not_not.mp hch⟩

theorem lookupSym_of_mem (l : List item_t) (hs : SortedBy char_cmp l) (e : item_t)
    (he : e ∈ l) : ∃ it, lookupSym l e.ch = some it := by
  have hev : char_cmp e ⟨[], e.ch, 0⟩ = false := by simp [char_cmp]
  obtain ⟨it, h1, _, h3, h4⟩ := lower_bound_spec char_cmp_strictWeak _ e l hs he hev
  simp only [char_cmp, decide_eq_false_iff_not, not_lt] at h3 h4
  have hch : it.ch = e.ch := le_antisymm h4 h3
  exact ⟨it, by simp [lookupSym, h1, hch]⟩

theorem codeOf_mem {l : List item_t} {t : wchar_t} (h : ∃ it, lookupSym l t = some it) :
    ∃ e ∈ l, e.ch = t ∧ e.key = codeOf l t := by
  obtain ⟨it, hit⟩ := h
  exact ⟨it, (lookupSym_some hit).1, (lookupSym_some hit).2, by simp [codeOf, hit]⟩

/-- When every lookup succeeds the packing loop appends, character by
character, the code found for it. -/
theorem packLoop_ok (l : List item_t) :
    ∀ (ts : List wchar_t) (bits : List Bool), (∀ t ∈ ts, ∃ it, lookupSym l t = some it) →
      packLoop l ts bits = .ok (bits ++ (ts.map (fun t => keyBits (codeOf l t))).flatten)
  | [], bits, _ => by simp [packLoop]
  | t :: ts, bits, h => by
    obtain ⟨it, hit⟩ := h t (List.mem_cons_self _ _)
    have ih := packLoop_ok l ts (bits ++ keyBits it.key)
      (fun u hu => h u (List.mem_cons_of_mem _ hu))
    simp only [packLoop, hit, ih, List.map_cons, List.flatten_cons, codeOf, List.append_assoc,
      Option.getD_some]

/-! ## `read_text`: the symbols of the table -/

theorem bump_keys (ch : wchar_t) (m : List (wchar_t × Int)) :
    (bump ch m).map Prod.fst =
      if ch ∈ m.map Prod.fst then m.map Prod.fst else m.map Prod.fst ++ [ch] := by
  induction m with
  | nil => simp [bump]
  | cons p rest ih =>
    obtain ⟨k, n⟩ := p
    by_cases hk : k = ch
    · simp [bump, hk]
    · have hk2 : ¬ ch = k := fun h => hk h.symm
      by_cases hm : ch ∈ rest.map Prod.fst
      · simp only [bump, if_neg hk, List.map_cons, ih, if_pos hm, List.mem_cons, hm, or_true,
          if_true]
      · simp only [bump, if_neg hk, List.map_cons, ih, if_neg hm, List.mem_cons, hm, hk2,
          or_self, if_false, List.cons_append]

theorem countSyms_fold_keys : ∀ (input : List wchar_t) (acc : List (wchar_t × Int)),
    (acc.map Prod.fst).Nodup →
      ((input.foldl (fun m ch => bump ch m) acc).map Prod.fst).Nodup ∧
      ∀ s, s ∈ (input.foldl (fun m ch => bump ch m) acc).map Prod.fst ↔
        s ∈ acc.map Prod.fst ∨ s ∈ input
  | [], acc, h => by simp [h]
  | x :: rest, acc, h => by
    have hb : ((bump x acc).map Prod.fst).Nodup := by
      rw [bump_keys]
      split
      · exact h
      · rename_i hx
        refine List.Nodup.append h (List.nodup_singleton x) ?_
        intro a ha hax
        rw [List.mem_singleton] at hax
        exact hx (hax ▸ ha)
    have ih := countSyms_fold_keys rest (bump x acc) hb
    simp only [List.foldl_cons]
    refine ⟨ih.1, fun s => ?_⟩
    rw [ih.2 s, bump_keys]
    by_cases hx : x ∈ acc.map Prod.fst
    · rw [if_pos hx]
      constructor
      · rintro (h1 | h1)
        · exact Or.inl h1
        · exact Or.inr (List.mem_cons_of_mem _ h1)
      · rintro (h1 | h1)
        · exact Or.inl h1
        · rcases List.mem_cons.mp h1 with h2 | h2
          · exact Or.inl (h2 ▸ hx)
          · exact Or.inr h2
    · rw [if_neg hx]
      simp only [List.mem_append, List.mem_singleton, List.mem_cons]
      tauto

/-- The symbols of the table built by `read_text`: a permutation of the
distinct characters of the input followed by the sentinel. -/
theorem read_text_symbols (E : Env) (hE : E.Conforming) (input : List wchar_t) :
    (∀ s, s ∈ (read_text E input).2.map (fun e => e.ch) ↔ s ∈ input ∨ s = 0) ∧
    (0 ∉ input → ((read_text E input).2.map (fun e => e.ch)).Nodup) := by
  have hk := countSyms_fold_keys input [] (by simp)
  have hperm : ((E.iter (countSyms input)).map Prod.fst).Perm ((countSyms input).map Prod.fst) :=
    (hE.iter_perm _).map _
  have hmap : (read_text E input).2.map (fun e => e.ch)
      = (E.iter (countSyms input)).map Prod.fst ++ [0] := by
    simp [read_text, Function.comp_def]
  rw [hmap]
  constructor
  · intro s
    rw [List.mem_append, hperm.mem_iff]
    have := hk.2 s
    simp only [List.map_nil, List.not_mem_nil, false_or] at this
    rw [show countSyms input = input.foldl (fun m ch => bump ch m) [] from rfl, this,
      List.mem_singleton]
  · intro h0
    apply List.Nodup.append (hperm.nodup_iff.mpr hk.1) (List.nodup_singleton _)
    intro s hs hs0
    rw [List.mem_singleton] at hs0
    subst hs0
    have := (hk.2 0).mp (hperm.mem_iff.mp hs)
    simp only [List.map_nil, List.not_mem_nil, false_or] at this
    exact h0 this

/-! ## Tables with good codes -/

theorem prefixFree_symm {a b : item_t}
    (h : ¬ a.key <+: b.key ∧ ¬ b.key <+: a.key) : ¬ b.key <+: a.key ∧ ¬ a.key <+: b.key :=
  ⟨h.2, h.1⟩

theorem GoodCodes.perm {l1 l2 : List item_t} (hp : l1.Perm l2) (h : GoodCodes l1) :
    GoodCodes l2 :=
  ⟨(hp.pairwise_iff prefixFree_symm).mp h.1,
    fun e he => h.2.1 e (hp.mem_iff.mpr he), fun e he => h.2.2 e (hp.mem_iff.mpr he)⟩

theorem calculate_keys_good (E : Env) (hE : E.Conforming) (items : List item_t)
    (h : 2 ≤ items.length) : GoodCodes (calculate_keys E items) := by
  have hspec := calculate_keys_spec E hE items
  have hinv := hspec.2.2 h
  rw [← hspec.1] at hinv h
  generalize calculate_keys E items = T at hinv h
  refine ⟨(codesUpTo_length T hinv).1, (codesUpTo_length T hinv).2, ?_⟩
  intro e he hnil
  obtain ⟨a, ha, rfl⟩ := List.getElem_of_mem he
  have hka : keyAt T a = [] := by
    simpa [keyAt, List.getElem?_eq_getElem ha] using hnil
  by_cases h0 : a = 0
  · exact hinv.1 a 1 ha (by omega) (by omega) (hka ▸ List.nil_prefix)
  · exact hinv.1 a 0 ha (by omega) h0 (hka ▸ List.nil_prefix)

/-! ## `decode`: reading one code -/

theorem bitChar_of_binary {x : Char} (h : x = '0' ∨ x = '1') :
    bitChar (decide (x = '1')) = x := by
  rcases h with h | h <;> subst h <;> decide

/-- The lookup of `decode` for a candidate `k` that starts the code of an
entry `e`: it stays inside the table; it finds `e` when `k` is the whole code
and an entry with a different code when `k` is a proper part of it. -/
theorem lookup_key (tbl : List item_t) (hs : SortedBy key_cmp tbl) (hpf : PrefixFree tbl)
    (e : item_t) (he : e ∈ tbl) (k s : List Char) (hk : e.key = k ++ s) :
    ∃ it, tbl[lower_bound key_cmp tbl ⟨k, 0, 0⟩]? = some it ∧
      (s = [] → it = e) ∧ (s ≠ [] → it.key ≠ k) := by
  have hev : key_cmp e ⟨k, 0, 0⟩ = false := by
    simp only [key_cmp, hk]
    exact strLt_append_left k s
  obtain ⟨it, h1, h2, h3, h4⟩ := lower_bound_spec key_cmp_strictWeak _ e tbl hs he hev
  simp only [key_cmp] at h3 h4
  rw [hk] at h4
  have hpre : k <+: it.key := prefix_of_between k s it.key h3 h4
  refine ⟨it, h1, fun hnil => ?_, fun hne hik => ?_⟩
  · by_contra hne
    have := (List.Pairwise.forall (fun _ _ h => prefixFree_symm h) hpf) he h2 (Ne.symm hne)
    apply this.1
    rw [hk, hnil, List.append_nil]
    exact hpre
  · have hie : it ≠ e := by
      intro h
      rw [h, hk] at hik
      exact hne (by simpa using hik)
    have := (List.Pairwise.forall (fun _ _ h => prefixFree_symm h) hpf) h2 he hie
    apply this.1
    rw [hik, hk]
    exact List.prefix_append k s

/-- Reading the rest `k2` of the code of the entry `e`, the candidate being
`k`: the loop reaches the match with `e`, then stops if `e` carries the
character `0` and otherwise emits the character of `e` and starts over. -/
theorem decodeLoop_code (tbl : List item_t) (hs : SortedBy key_cmp tbl) (hpf : PrefixFree tbl)
    (e : item_t) (he : e ∈ tbl) (hb : BinaryKey e.key) :
    ∀ (k2 k : List Char), e.key = k ++ k2 → k2 ≠ [] → ∀ (out : List wchar_t) (rest : List Bool),
      decodeLoop tbl k out (keyBits k2 ++ rest) =
        if e.ch = 0 then (out, .done) else decodeLoop tbl [] (out ++ [e.ch]) rest
  | [], _, _, h, _, _ => absurd rfl h
  | x :: k2, k, hk, _, out, rest => by
    have hx : bitChar (decide (x = '1')) = x := bitChar_of_binary (hb x (by simp [hk]))
    have hk2 : e.key = (k ++ [x]) ++ k2 := by simp [hk]
    obtain ⟨it, h1, h2, h3⟩ := lookup_key tbl hs hpf e he (k ++ [x]) k2 hk2
    simp only [keyBits, List.map_cons, List.cons_append, decodeLoop, hx, h1]
    by_cases hnil : k2 = []
    · have hit := h2 hnil
      subst hit
      have : it.key = k ++ [x] := by rw [hk2, hnil, List.append_nil]
      subst hnil
      simp [this]
    · rw [if_pos (h3 hnil)]
      exact decodeLoop_code tbl hs hpf e he hb k2 (k ++ [x]) hk2 hnil out rest

/-- Bits that stop inside the code of an entry: the loop throws. -/
theorem decodeLoop_partial (tbl : List item_t) (hs : SortedBy key_cmp tbl)
    (hpf : PrefixFree tbl) (e : item_t) (he : e ∈ tbl) (hb : BinaryKey e.key) :
    ∀ (k2 k s : List Char), e.key = k ++ k2 ++ s → s ≠ [] → k ++ k2 ≠ [] →
      ∀ (out : List wchar_t), decodeLoop tbl k out (keyBits k2) = (out, .thrown "Decode error")
  | [], k, _, _, _, hne, out => by
    have : k ≠ [] := by simpa using hne
    simp [keyBits, decodeLoop, this]
  | x :: k2, k, s, hk, hs2, _, out => by
    have hx : bitChar (decide (x = '1')) = x := bitChar_of_binary (hb x (by simp [hk]))
    have hk2 : e.key = (k ++ [x]) ++ (k2 ++ s) := by simp [hk]
    obtain ⟨it, h1, _, h3⟩ := lookup_key tbl hs hpf e he (k ++ [x]) (k2 ++ s) hk2
    simp only [keyBits, List.map_cons, decodeLoop, hx, h1]
    rw [if_pos (h3 (by simp [hs2]))]
    exact decodeLoop_partial tbl hs hpf e he hb k2 (k ++ [x]) s (by simp [hk]) hs2 (by simp) out

/-! ## `decode`: reading a sequence of codes -/

/-- Bits that are a proper part of the code of an entry: the loop returns
normally when there is no bit at all and throws otherwise. -/
theorem decodeLoop_proper (tbl : List item_t) (hs : SortedBy key_cmp tbl) (hg : GoodCodes tbl)
    (e : item_t) (he : e ∈ tbl) (p : List Bool) (hp : p <+: keyBits e.key)
    (hne : p ≠ keyBits e.key) (out : List wchar_t) :
    decodeLoop tbl [] out p = (out, if p = [] then .done else .thrown "Decode error") := by
  by_cases hnil : p = []
  · subst hnil
    simp [decodeLoop]
  · rw [if_neg hnil]
    have hp2 : p = keyBits (e.key.take p.length) := by
      rw [keyBits, List.map_take]
      exact List.prefix_iff_eq_take.mp hp
    have hs2 : e.key.drop p.length ≠ [] := by
      intro h
      apply hne
      have hfull : e.key.take p.length = e.key := by
        have := List.take_append_drop p.length e.key
        rw [h, List.append_nil] at this
        exact this
      rw [hfull] at hp2
      exact hp2
    have hk2 : ([] : List Char) ++ e.key.take p.length ≠ [] := by
      intro h
      rw [List.nil_append] at h
      rw [h] at hp2
      exact hnil (by simpa [keyBits] using hp2)
    have := decodeLoop_partial tbl hs hg.1 e he (hg.2.1 e he) (e.key.take p.length) []
      (e.key.drop p.length) (by simp) hs2 hk2 out
    rw [← hp2] at this
    exact this

/-- Decoding the codes of a sequence of characters that holds the character
`0`: the output is the part of the sequence before the first `0`, the run
ends normally and whatever follows the code of that `0` is not read. -/
theorem decodeLoop_symbols (tbl : List item_t) (hs : SortedBy key_cmp tbl) (hg : GoodCodes tbl)
    (f : wchar_t → item_t) :
    ∀ (ts : List wchar_t) (out : List wchar_t) (rest : List Bool),
      (∀ t ∈ ts, f t ∈ tbl ∧ (f t).ch = t) → (0 : wchar_t) ∈ ts →
      decodeLoop tbl [] out ((ts.map (fun t => keyBits (f t).key)).flatten ++ rest) =
        (out ++ ts.takeWhile (fun t => decide (t ≠ 0)), .done)
  | [], _, _, _, h0 => by simp at h0
  | t :: ts, out, rest, hf, h0 => by
    obtain ⟨hmem, hch⟩ := hf t (List.mem_cons_self _ _)
    have hstep := decodeLoop_code tbl hs hg.1 (f t) hmem (hg.2.1 _ hmem) (f t).key [] rfl
      (hg.2.2 _ hmem) out ((ts.map (fun t => keyBits (f t).key)).flatten ++ rest)
    simp only [List.map_cons, List.flatten_cons, List.append_assoc]
    rw [hstep, hch]
    by_cases ht : t = 0
    · subst ht
      simp
    · rw [if_neg ht]
      have h0t : (0 : wchar_t) ∈ ts := by
        rcases List.mem_cons.mp h0 with h | h
        · exact absurd h.symm ht
        · exact h
      rw [decodeLoop_symbols tbl hs hg f ts (out ++ [t]) rest
        (fun u hu => hf u (List.mem_cons_of_mem _ hu)) h0t]
      simp [ht]

/-- Decoding a proper part `p` of the codes of the characters `xs` (none of
them `0`) followed by the code of `z`: `p` is the codes of the first `j`
characters followed by a proper part `q` of the next code; the output is
these `j` characters; the run ends normally when `q` is empty and throws
otherwise. -/
theorem decodeLoop_truncated (tbl : List item_t) (hs : SortedBy key_cmp tbl)
    (hg : GoodCodes tbl) (f : wchar_t → item_t) (z : wchar_t) (hz : f z ∈ tbl) :
    ∀ (xs : List wchar_t) (out : List wchar_t) (p : List Bool),
      (∀ t ∈ xs, f t ∈ tbl ∧ (f t).ch = t ∧ t ≠ 0) →
      p <+: (xs.map (fun t => keyBits (f t).key)).flatten ++ keyBits (f z).key →
      p ≠ (xs.map (fun t => keyBits (f t).key)).flatten ++ keyBits (f z).key →
      ∃ j q, j ≤ xs.length ∧
        p = ((xs.take j).map (fun t => keyBits (f t).key)).flatten ++ q ∧
        q <+: keyBits (f ((xs ++ [z]).getD j z)).key ∧
        q ≠ keyBits (f ((xs ++ [z]).getD j z)).key ∧
        decodeLoop tbl [] out p =
          (out ++ xs.take j, if q = [] then .done else .thrown "Decode error")
  | [], out, p, _, hp, hne => by
    simp only [List.map_nil, List.flatten_nil, List.nil_append] at hp hne
    refine ⟨0, p, Nat.le_refl _, by simp, by simpa using hp, by simpa using hne, ?_⟩
    rw [decodeLoop_proper tbl hs hg (f z) hz p hp hne out]
    simp
  | x :: xs, out, p, hf, hp, hne => by
    obtain ⟨hmem, hch, hx0⟩ := hf x (List.mem_cons_self _ _)
    simp only [List.map_cons, List.flatten_cons, List.append_assoc] at hp hne
    by_cases hpc : p <+: keyBits (f x).key ∧ p ≠ keyBits (f x).key
    · refine ⟨0, p, Nat.zero_le _, by simp, by simpa using hpc.1, by simpa using hpc.2, ?_⟩
      rw [decodeLoop_proper tbl hs hg (f x) hmem p hpc.1 hpc.2 out]
      simp
    · have hcp : keyBits (f x).key <+: p := by
        rcases List.prefix_or_prefix_of_prefix hp (List.prefix_append _ _) with h | h
        · by_cases heq : p = keyBits (f x).key
          · rw [heq]
          · exact absurd ⟨h, heq⟩ hpc
        · exact h
      obtain ⟨r, rfl⟩ := hcp
      have hq : r <+: (xs.map (fun t => keyBits (f t).key)).flatten ++ keyBits (f z).key :=
        (List.prefix_append_right_inj _).mp hp
      have hqne : r ≠ (xs.map (fun t => keyBits (f t).key)).flatten ++ keyBits (f z).key :=
        fun h => hne (by rw [h])
      obtain ⟨j, q, hj, hpq, hq1, hq2, hdec⟩ :=
        decodeLoop_truncated tbl hs hg f z hz xs (out ++ [x]) r
          (fun u hu => hf u (List.mem_cons_of_mem _ hu)) hq hqne
      refine ⟨j + 1, q, by simpa using hj, ?_, by simpa using hq1, by simpa using hq2, ?_⟩
      · simp only [List.take_succ_cons, List.map_cons, List.flatten_cons, List.append_assoc]
        rw [← hpq]
      · rw [decodeLoop_code tbl hs hg.1 (f x) hmem (hg.2.1 _ hmem) (f x).key [] rfl
          (hg.2.2 _ hmem) out r, hch, if_neg hx0, hdec]
        simp only [List.take_succ_cons, List.append_assoc, List.singleton_append]

/-- The codes of the first `i` items cannot reach past a proper part `q` of
the code of item `j` when `j < i`: the number `j` of complete codes in
`codes (take j) ++ q` is the largest. -/
theorem complete_codes_maximal {α : Type} (c : α → List Bool) (z : α) :
    ∀ (xs : List α) (j i : Nat) (q : List Bool), i ≤ xs.length →
      ((xs.take i).map c).flatten <+: ((xs.take j).map c).flatten ++ q →
      q <+: c ((xs ++ [z]).getD j z) → q ≠ c ((xs ++ [z]).getD j z) → i ≤ j
  | [], j, i, _, hi, _, _, _ => by
    simp only [List.length_nil, Nat.le_zero_eq] at hi
    omega
  | x :: xs, 0, 0, _, _, _, _, _ => Nat.le_refl _
  | x :: xs, j + 1, 0, _, _, _, _, _ => Nat.zero_le _
  | x :: xs, 0, i + 1, q, _, hpre, hq, hne => by
    exfalso
    apply hne
    simp only [List.take_succ_cons, List.map_cons, List.flatten_cons, List.take_zero,
      List.map_nil, List.flatten_nil, List.nil_append] at hpre
    simp only [List.cons_append, List.getD_cons_zero] at hq ⊢
    have h1 : c x <+: q := (List.prefix_append _ _).trans hpre
    exact hq.eq_of_length (Nat.le_antisymm hq.length_le h1.length_le)
  | x :: xs, j + 1, i + 1, q, hi, hpre, hq, hne => by
    simp only [List.take_succ_cons, List.map_cons, List.flatten_cons, List.append_assoc] at hpre
    simp only [List.cons_append, List.getD_cons_succ] at hq hne
    have := complete_codes_maximal c z xs j i q (by simpa using hi)
      ((List.prefix_append_right_inj _).mp hpre) hq hne
    omega

/-! ## The encoder pipeline -/

theorem calculate_keys_symbols (E : Env) (hE : E.Conforming) (items : List item_t) :
    ((calculate_keys E items).map (fun e => e.ch)).Perm (items.map (fun e => e.ch)) := by
  have h := ((calculate_keys_spec E hE items).2.1).map Prod.fst
  simpa only [List.map_map, Function.comp_def, symCount] using h

/-- Every character of the input, and the character `0`, is found by the
lookup of `data2bitfield` in the table ordered by character. -/
theorem lookup_input (E : Env) (hE : E.Conforming) (input : List wchar_t) (t : wchar_t)
    (ht : t ∈ input ∨ t = 0) :
    ∃ it, lookupSym (E.sort char_cmp (calculate_keys E (read_text E input).2)) t = some it := by
  have h1 : t ∈ (read_text E input).2.map (fun e => e.ch) :=
    ((read_text_symbols E hE input).1 t).mpr ht
  have h2 := (calculate_keys_symbols E hE (read_text E input).2).mem_iff.mpr h1
  obtain ⟨e, he, hch⟩ := List.mem_map.mp h2
  have he2 : e ∈ E.sort char_cmp (calculate_keys E (read_text E input).2) :=
    (hE.sort_perm char_cmp_strictWeak _).mem_iff.mpr he
  have := lookupSym_of_mem _ (hE.sort_sorted char_cmp_strictWeak _) e he2
  rwa [hch] at this

theorem data2bitfield_ok (E : Env) (hE : E.Conforming) (input : List wchar_t) :
    data2bitfield E (read_text E input).1 (calculate_keys E (read_text E input).2) =
      .ok (E.sort char_cmp (calculate_keys E (read_text E input).2),
        ((input ++ [0]).map (fun t =>
          keyBits (codeOf (E.sort char_cmp (calculate_keys E (read_text E input).2)) t))).flatten)
    := by
  have hl : ∀ t ∈ input ++ [0],
      ∃ it, lookupSym (E.sort char_cmp (calculate_keys E (read_text E input).2)) t = some it := by
    intro t ht
    apply lookup_input E hE input t
    simpa using ht
  have hp := packLoop_ok _ (input ++ [0]) [] hl
  simp only [data2bitfield, show (read_text E input).1 = input from rfl, hp, List.nil_append]

theorem encode_ok (E : Env) (hE : E.Conforming) (input : List wchar_t) :
    encode E input =
      .ok (CONTROL_NUMBER, E.sort char_cmp (calculate_keys E (read_text E input).2),
        ((input ++ [0]).map (fun t =>
          keyBits (codeOf (E.sort char_cmp (calculate_keys E (read_text E input).2)) t))).flatten)
    := by
  have h := data2bitfield_ok E hE input
  simp only [encode, h]

theorem read_text_length (E : Env) (hE : E.Conforming) (input : List wchar_t)
    (hne : input ≠ []) : 2 ≤ (read_text E input).2.length := by
  obtain ⟨x, xs, rfl⟩ := List.exists_cons_of_ne_nil hne
  have hx : x ∈ (read_text E (x :: xs)).2.map (fun e => e.ch) :=
    ((read_text_symbols E hE (x :: xs)).1 x).mpr (Or.inl (List.mem_cons_self _ _))
  have hlen : (read_text E (x :: xs)).2.length = (countSyms (x :: xs)).length + 1 := by
    simp [read_text, (hE.iter_perm _).length_eq]
  have hk := (countSyms_fold_keys (x :: xs) [] (by simp)).2 x
  have hmem : x ∈ (countSyms (x :: xs)).map Prod.fst := by
    rw [show countSyms (x :: xs) = (x :: xs).foldl (fun m ch => bump ch m) [] from rfl, hk]
    exact Or.inr (List.mem_cons_self _ _)
  have hpos : 0 < (countSyms (x :: xs)).length := by
    cases hc : countSyms (x :: xs) with
    | nil => rw [hc] at hmem; simp at hmem
    | cons _ _ => simp
  omega

/-- The table that `decode` walks after encoding a non-empty input: ordered by
code, with good codes, and holding for every character of the input (and for
`0`) the entry whose code was packed. -/
theorem decode_table (E : Env) (hE : E.Conforming) (input : List wchar_t) (hne : input ≠ []) :
    SortedBy key_cmp
      (E.sort key_cmp (E.sort char_cmp (calculate_keys E (read_text E input).2))) ∧
    GoodCodes (E.sort key_cmp (E.sort char_cmp (calculate_keys E (read_text E input).2))) ∧
    ∀ t, t ∈ input ∨ t = 0 →
      (lookupSym (E.sort char_cmp (calculate_keys E (read_text E input).2)) t).getD default ∈
          E.sort key_cmp (E.sort char_cmp (calculate_keys E (read_text E input).2)) ∧
      ((lookupSym (E.sort char_cmp (calculate_keys E (read_text E input).2)) t).getD default).ch
        = t := by
  refine ⟨hE.sort_sorted key_cmp_strictWeak _, ?_, fun t ht => ?_⟩
  · have hg := calculate_keys_good E hE _ (read_text_length E hE input hne)
    exact GoodCodes.perm (hE.sort_perm key_cmp_strictWeak _).symm
      (GoodCodes.perm (hE.sort_perm char_cmp_strictWeak _).symm hg)
  · obtain ⟨it, hit⟩ := lookup_input E hE input t ht
    rw [hit, Option.getD_some]
    exact ⟨(hE.sort_perm key_cmp_strictWeak _).mem_iff.mpr (lookupSym_some hit).1,
      (lookupSym_some hit).2⟩

theorem takeWhile_append_sentinel (X : List wchar_t) :
    (X ++ [0]).takeWhile (fun t => decide (t ≠ 0)) = X.takeWhile (fun t => decide (t ≠ 0)) := by
  induction X with
  | nil => simp
  | cons x xs ih =>
    by_cases hx : x = 0
    · simp [hx]
    · simpa [List.takeWhile_cons, hx] using ih

/-- Decoding what `encode` wrote for a non-empty input returns normally with
the characters of the input that precede its first character `0` (the whole
input when it has none). -/
theorem decode_encode (E : Env) (hE : E.Conforming) (X : List wchar_t) (hX : X ≠ []) :
    ∃ items bits, encode E X = .ok (CONTROL_NUMBER, items, bits) ∧
      decode E CONTROL_NUMBER items bits = (X.takeWhile (fun t => decide (t ≠ 0)), .done) := by
  refine ⟨_, _, encode_ok E hE X, ?_⟩
  obtain ⟨hs, hg, hf⟩ := decode_table E hE X hX
  have hrun := decodeLoop_symbols _ hs hg
    (fun t => (lookupSym (E.sort char_cmp (calculate_keys E (read_text E X).2)) t).getD default)
    (X ++ [0]) [] [] (fun t ht => hf t (by simpa using ht)) (by simp)
  rw [List.append_nil, takeWhile_append_sentinel, List.nil_append] at hrun
  simp only [decode, ne_eq, not_true_eq_false, if_false, codeOf]
  exact hrun

/-! ## `decode`: output at a failure -/

theorem keyBits_map_bitChar (r : List Bool) : keyBits (r.map bitChar) = r := by
  induction r with
  | nil => rfl
  | cons b r ih =>
    simp only [keyBits, List.map_cons, List.cons.injEq] at ih ⊢
    exact ⟨by cases b <;> decide, ih⟩

theorem binaryKey_map_bitChar (r : List Bool) : BinaryKey (r.map bitChar) := by
  intro x hx
  obtain ⟨b, _, rfl⟩ := List.mem_map.mp hx
  cases b
  · exact Or.inl rfl
  · exact Or.inr rfl

/-- One pass of the inner loop in a run that throws.  Started with candidate
`key` and output `out`, either no lookup ends the loop before the bits run
out, and nothing more is emitted; or the bits start with a non-empty `seg`
whose last bit gives the first lookup that ends the loop, on an entry `e`
whose character is not `0`, and the run goes on from the head of the outer
loop with the character of `e` appended to the output. -/
theorem decodeLoop_scan (tbl : List item_t) :
    ∀ (bits : List Bool) (key : List Char) (out o : List wchar_t) (m : String),
      decodeLoop tbl key out bits = (o, .thrown m) →
      (o = out ∧ (key ≠ [] ∨ bits ≠ []) ∧
        ∀ r, r ≠ [] → r <+: bits → ¬ Matched tbl (key ++ r.map bitChar)) ∨
      (∃ seg rest e, bits = seg ++ rest ∧ seg ≠ [] ∧
        tbl[lower_bound key_cmp tbl ⟨key ++ seg.map bitChar, 0, 0⟩]? = some e ∧
        e.key = key ++ seg.map bitChar ∧
        (∀ r, r ≠ [] → r <+: seg → r ≠ seg → ¬ Matched tbl (key ++ r.map bitChar)) ∧
        e.ch ≠ 0 ∧ decodeLoop tbl [] (out ++ [e.ch]) rest = (o, .thrown m))
  | [], key, out, o, m, h => by
    simp only [decodeLoop] at h
    split at h
    · simp at h
    · rename_i hkey
      simp only [Prod.mk.injEq] at h
      refine Or.inl ⟨h.1.symm, Or.inl hkey, fun r hr hpre => ?_⟩
      exact absurd (List.prefix_nil.mp hpre) hr
  | b :: rest, key, out, o, m, h => by
    simp only [decodeLoop] at h
    split at h
    · simp at h
    · rename_i it hit
      split at h
      · rename_i hkey
        have hfirst : ¬ Matched tbl (key ++ [bitChar b]) := by
          rintro ⟨it2, h1, h2⟩
          rw [hit] at h1
          cases h1
          exact hkey h2
        rcases decodeLoop_scan tbl rest _ out o m h with
          ⟨h1, _, h3⟩ | ⟨seg, rest2, e, h1, h2, h3, h4, h5, h6, h7⟩
        · refine Or.inl ⟨h1, Or.inr (by simp), fun r hr hpre => ?_⟩
          obtain ⟨c, r2, rfl⟩ := List.exists_cons_of_ne_nil hr
          obtain ⟨rfl, hpre2⟩ := List.cons_prefix_cons.mp hpre
          by_cases hr2 : r2 = []
          · subst hr2
            exact hfirst
          · have := h3 r2 hr2 hpre2
            simpa using this
        · refine Or.inr ⟨b :: seg, rest2, e, by rw [h1]; rfl, by simp, ?_, ?_, ?_, h6, h7⟩
          · simpa using h3
          · simpa using h4
          · intro r hr hpre hne
            obtain ⟨c, r2, rfl⟩ := List.exists_cons_of_ne_nil hr
            obtain ⟨rfl, hpre2⟩ := List.cons_prefix_cons.mp hpre
            by_cases hr2 : r2 = []
            · subst hr2
              exact hfirst
            · have := h5 r2 hr2 hpre2 (fun h => hne (by rw [h]))
              simpa using this
      · rename_i hkey
        split at h
        · simp at h
        · rename_i hch
          have hkey2 : it.key = key ++ [bitChar b] := not_not.mp hkey
          refine Or.inr ⟨[b], rest, it, rfl, by simp, by simpa using hit, by simpa using hkey2,
            ?_, hch, h⟩
          intro r hr hpre hne
          exfalso
          obtain ⟨c, r2, rfl⟩ := List.exists_cons_of_ne_nil hr
          obtain ⟨rfl, hpre2⟩ := List.cons_prefix_cons.mp hpre
          exact hne (by rw [List.prefix_nil.mp hpre2])

/-- A run of the loop from the head of the outer loop that throws: the bits
are the codes of entries `es`, each found as the first match of its pass and
none carrying the character `0`, followed by a non-empty rest in which no
lookup ends the inner loop; the output is the characters of `es` appended to
the output at the start. -/
theorem decodeLoop_thrown_codes (tbl : List item_t) :
    ∀ (n : Nat) (bits : List Bool) (out o : List wchar_t) (m : String), bits.length ≤ n →
      decodeLoop tbl [] out bits = (o, .thrown m) →
      ∃ (es : List item_t) (q : List Bool),
        bits = (es.map (fun e => keyBits e.key)).flatten ++ q ∧
        (∀ e ∈ es, FirstCode tbl e ∧ BinaryKey e.key ∧ e.ch ≠ 0) ∧
        o = out ++ es.map (fun e => e.ch) ∧ q ≠ [] ∧
        ∀ r, r ≠ [] → r <+: q → ¬ Matched tbl (r.map bitChar)
  | n, bits, out, o, m, hn, h => by
    rcases decodeLoop_scan tbl bits [] out o m h with
      ⟨h1, h2, h3⟩ | ⟨seg, rest, e, h1, h2, h3, h4, h5, h6, h7⟩
    · refine ⟨[], bits, by simp, by simp, by simp [h1], ?_, fun r hr hpre => ?_⟩
      · rcases h2 with h2 | h2
        · exact absurd rfl h2
        · exact h2
      · simpa using h3 r hr hpre
    · simp only [List.nil_append] at h3 h4 h5
      have hlen : 0 < seg.length := List.length_pos.mpr h2
      cases n with
      | zero =>
        rw [h1, List.length_append] at hn
        omega
      | succ n =>
        have hrest : rest.length ≤ n := by
          rw [h1, List.length_append] at hn
          omega
        obtain ⟨es, q, g1, g2, g3, g4, g5⟩ :=
          decodeLoop_thrown_codes tbl n rest (out ++ [e.ch]) o m hrest h7
        refine ⟨e :: es, q, ?_, ?_, ?_, g4, g5⟩
        · simp only [List.map_cons, List.flatten_cons, List.append_assoc]
          rw [h4, keyBits_map_bitChar, ← g1, h1]
        · intro e2 he2
          rcases List.mem_cons.mp he2 with rfl | he2
          · refine ⟨⟨?_, ?_, ?_⟩, ?_, h6⟩
            · rw [h4]
              simpa using h2
            · rw [h4]
              exact h3
            · intro k hk hpre hne
              rw [h4] at hpre hne
              have hk2 : k = (seg.take k.length).map bitChar := by
                rw [List.map_take]
                exact List.prefix_iff_eq_take.mp hpre
              rw [hk2]
              apply h5
              · intro h0
                rw [h0] at hk2
                exact hk (by simpa using hk2)
              · exact List.take_prefix _ _
              · intro h0
                rw [h0] at hk2
                exact hne hk2
            · rw [h4]
              exact binaryKey_map_bitChar seg
          · exact g2 e2 he2
        · rw [g3]
          simp

theorem map_bitChar_keyBits : ∀ (k : List Char), BinaryKey k → (keyBits k).map bitChar = k
  | [], _ => rfl
  | x :: k, h => by
    have hx : bitChar (decide (x = '1')) = x := bitChar_of_binary (h x (List.mem_cons_self _ _))
    have ih := map_bitChar_keyBits k (fun y hy => h y (List.mem_cons_of_mem _ hy))
    simp only [keyBits, List.map_cons, List.map_map] at ih ⊢
    rw [hx, ih]

theorem firstCode_matched {tbl : List item_t} {e : item_t} (h : FirstCode tbl e) :
    Matched tbl e.key :=
  ⟨e, h.2.1, rfl⟩

/-- Two entries that are first matches and whose codes start the same bits
are the same entry. -/
theorem firstCode_eq {tbl : List item_t} {e e2 : item_t} (h : FirstCode tbl e)
    (h2 : FirstCode tbl e2) (hb : BinaryKey e.key) (hb2 : BinaryKey e2.key)
    (hpre : keyBits e.key <+: keyBits e2.key) : e = e2 := by
  have hk : e.key <+: e2.key := by
    have := hpre.map bitChar
    rwa [map_bitChar_keyBits _ hb, map_bitChar_keyBits _ hb2] at this
  have hkey : e.key = e2.key := by
    by_contra hne
    exact h2.2.2 e.key h.1 hk hne (firstCode_matched h)
  have h3 := h.2.1
  rw [hkey, h2.2.1] at h3
  exact (Option.some.inj h3).symm

/-- The splitting of a bit sequence into codes that are first matches,
followed by a rest inside which no lookup ends the inner loop, is determined
by the table and the bits alone. -/
theorem thrown_codes_unique (tbl : List item_t) :
    ∀ (es es2 : List item_t) (q q2 : List Bool),
      (es.map (fun e => keyBits e.key)).flatten ++ q =
        (es2.map (fun e => keyBits e.key)).flatten ++ q2 →
      (∀ e ∈ es, FirstCode tbl e ∧ BinaryKey e.key) →
      (∀ e ∈ es2, FirstCode tbl e ∧ BinaryKey e.key) →
      (∀ r, r ≠ [] → r <+: q → ¬ Matched tbl (r.map bitChar)) →
      (∀ r, r ≠ [] → r <+: q2 → ¬ Matched tbl (r.map bitChar)) →
      es = es2 ∧ q = q2
  | [], [], q, q2, h, _, _, _, _ => ⟨rfl, by simpa using h⟩
  | [], e :: es2, q, q2, h, _, h2, h3, _ => by
    exfalso
    obtain ⟨hf, hb⟩ := h2 e (List.mem_cons_self _ _)
    simp only [List.map_nil, List.flatten_nil, List.nil_append, List.map_cons,
      List.flatten_cons, List.append_assoc] at h
    apply h3 (keyBits e.key)
    · intro h0
      have := map_bitChar_keyBits _ hb
      rw [h0] at this
      exact hf.1 this.symm
    · rw [h]
      exact List.prefix_append _ _
    · rw [map_bitChar_keyBits _ hb]
      exact firstCode_matched hf
  | e :: es, [], q, q2, h, h1, _, _, h4 => by
    exfalso
    obtain ⟨hf, hb⟩ := h1 e (List.mem_cons_self _ _)
    simp only [List.map_nil, List.flatten_nil, List.nil_append, List.map_cons,
      List.flatten_cons, List.append_assoc] at h
    apply h4 (keyBits e.key)
    · intro h0
      have := map_bitChar_keyBits _ hb
      rw [h0] at this
      exact hf.1 this.symm
    · rw [← h]
      exact List.prefix_append _ _
    · rw [map_bitChar_keyBits _ hb]
      exact firstCode_matched hf
  | e :: es, e2 :: es2, q, q2, h, h1, h2, h3, h4 => by
    obtain ⟨hf, hb⟩ := h1 e (List.mem_cons_self _ _)
    obtain ⟨hf2, hb2⟩ := h2 e2 (List.mem_cons_self _ _)
    simp only [List.map_cons, List.flatten_cons, List.append_assoc] at h
    have hee : e = e2 := by
      have p1 : keyBits e.key <+: keyBits e2.key ++ ((es2.map (fun e => keyBits e.key)).flatten
          ++ q2) := by
        rw [← h]
        exact List.prefix_append _ _
      rcases List.prefix_or_prefix_of_prefix p1 (List.prefix_append _ _) with hp | hp
      · exact firstCode_eq hf hf2 hb hb2 hp
      · exact (firstCode_eq hf2 hf hb2 hb hp).symm
    subst hee
    have := thrown_codes_unique tbl es es2 q q2 (List.append_cancel_left h)
      (fun x hx => h1 x (List.mem_cons_of_mem _ hx))
      (fun x hx => h2 x (List.mem_cons_of_mem _ hx)) h3 h4
    exact ⟨by rw [this.1], this.2⟩

theorem decodeLoop_thrown_msg (tbl : List item_t) :
    ∀ (bits : List Bool) (key : List Char) (out o : List wchar_t) (m : String),
      decodeLoop tbl key out bits = (o, .thrown m) → m = "Decode error"
  | [], key, out, o, m, h => by
    simp only [decodeLoop] at h
    split at h
    · simp at h
    · simp only [Prod.mk.injEq, Status.thrown.injEq] at h
      exact h.2.symm
  | b :: rest, key, out, o, m, h => by
    simp only [decodeLoop] at h
    split at h
    · simp at h
    · split at h
      · exact decodeLoop_thrown_msg tbl rest _ _ o m h
      · split at h
        · simp at h
        · exact decodeLoop_thrown_msg tbl rest _ _ o m h

/-! ## Claims about `calculate_keys` -/

/-- C2 (prefix-freedom): for every table with at least two entries, after
`calculate_keys` no entry has a code that is a prefix of the code of a
different entry; in particular the codes are pairwise distinct. -/
theorem calculate_keys_prefix_free (E : Env) (hE : E.Conforming) (items : List item_t)
    (h : 2 ≤ items.length) :
    (calculate_keys E items).Pairwise
      (fun a b => ¬ a.key <+: b.key ∧ ¬ b.key <+: a.key ∧ a.key ≠ b.key) := by
  have hspec := calculate_keys_spec E hE items
  have hinv := hspec.2.2 h
  rw [← hspec.1] at hinv
  refine (codesUpTo_length _ hinv).1.imp ?_
  intro a b hab
  exact ⟨hab.1, hab.2, fun heq => hab.1 (heq ▸ List.prefix_refl _)⟩

theorem calculate_keys_prefix_free_witness :
    Env.ref.Conforming ∧ 2 ≤ [(⟨[], 65, 4⟩ : item_t), ⟨[], 66, 2⟩, ⟨[], 0, 1⟩].length ∧
    (calculate_keys Env.ref [⟨[], 65, 4⟩, ⟨[], 66, 2⟩, ⟨[], 0, 1⟩]).Pairwise
      (fun a b => ¬ a.key <+: b.key ∧ ¬ b.key <+: a.key ∧ a.key ≠ b.key) :=
  ⟨Env.ref_conforming, by decide,
    calculate_keys_prefix_free Env.ref Env.ref_conforming _ (by decide)⟩

/-- C9 (code assignment only populates codes): for every table, the list of
(symbol, count) pairs after `calculate_keys` is a permutation of the list of
(symbol, count) pairs before it, so only codes and the order of entries can
differ. -/
theorem calculate_keys_symbols_counts (E : Env) (hE : E.Conforming) (items : List item_t) :
    ((calculate_keys E items).map (fun e => (e.ch, e.c))).Perm
      (items.map (fun e => (e.ch, e.c))) :=
  (calculate_keys_spec E hE items).2.1

theorem calculate_keys_symbols_counts_witness :
    Env.ref.Conforming ∧
    ((calculate_keys Env.ref [⟨[], 66, 2⟩, ⟨[], 65, 4⟩, ⟨[], 0, 1⟩]).map
      (fun e => (e.ch, e.c))).Perm
      ([(⟨[], 66, 2⟩ : item_t), ⟨[], 65, 4⟩, ⟨[], 0, 1⟩].map (fun e => (e.ch, e.c))) :=
  ⟨Env.ref_conforming, calculate_keys_symbols_counts Env.ref Env.ref_conforming _⟩

/-! ## Claims about `read_text`, `data2bitfield` and `encode` -/

/-- C3 (sentinel presence) at the input made of two characters `0`: the table
built by `read_text` has two entries whose symbol is the sentinel code point,
the counted one (count 2) and the appended one (count 1). -/
theorem read_text_nul_input :
    read_text Env.ref [0, 0] = ([0, 0], [⟨[], 0, 2⟩, ⟨[], 0, 1⟩]) := by
  decide

/-- C8 (no unknown symbol): for every input, each lookup of `data2bitfield` on
the table made by `read_text` and `calculate_keys`, for the characters of the
input and for the final `0`, finds an entry with that symbol, and
`data2bitfield` returns without raising "Unknown symbol". -/
theorem data2bitfield_no_unknown_symbol (E : Env) (hE : E.Conforming) (input : List wchar_t) :
    (∀ t ∈ input ++ [0],
      ∃ it ∈ E.sort char_cmp (calculate_keys E (read_text E input).2),
        lookupSym (E.sort char_cmp (calculate_keys E (read_text E input).2)) t = some it ∧
        it.ch = t) ∧
    ∃ r, data2bitfield E (read_text E input).1 (calculate_keys E (read_text E input).2)
      = .ok r := by
  refine ⟨fun t ht => ?_, _, data2bitfield_ok E hE input⟩
  obtain ⟨it, hit⟩ := lookup_input E hE input t (by simpa using ht)
  exact ⟨it, (lookupSym_some hit).1, hit, (lookupSym_some hit).2⟩

theorem data2bitfield_no_unknown_symbol_witness :
    Env.ref.Conforming ∧
    (∀ t ∈ [(66 : wchar_t), 65, 66] ++ [0],
      ∃ it ∈ Env.ref.sort char_cmp (calculate_keys Env.ref (read_text Env.ref [66, 65, 66]).2),
        lookupSym (Env.ref.sort char_cmp
          (calculate_keys Env.ref (read_text Env.ref [66, 65, 66]).2)) t = some it ∧
        it.ch = t) ∧
    ∃ r, data2bitfield Env.ref (read_text Env.ref [66, 65, 66]).1
      (calculate_keys Env.ref (read_text Env.ref [66, 65, 66]).2) = .ok r :=
  ⟨Env.ref_conforming, data2bitfield_no_unknown_symbol Env.ref Env.ref_conforming [66, 65, 66]⟩

/-- What `data2bitfield` packs for every input `X` with table
`T = calculate_keys (read_text X)`: there is an assignment `code` of a code
to every character such that `code s` is the code of an entry of `T` carrying
`s` for every character of `X` and for the character `0` (when `X` has no
character `0` the entries of `T` carry distinct symbols, so `code` is the
code of the only entry with that symbol and `code 0` is the code of the
sentinel entry), and the bits are the codes of the characters of `X` in
input order (character `1` as bit 1, any other as bit 0) followed once by
`code 0`. -/
theorem data2bitfield_packs_codes (E : Env) (hE : E.Conforming) (X : List wchar_t) :
    ∃ code : wchar_t → List Char,
      (∀ s, s ∈ X ∨ s = 0 →
        ∃ e ∈ calculate_keys E (read_text E X).2, e.ch = s ∧ e.key = code s) ∧
      ((0 : wchar_t) ∉ X → ∀ e ∈ calculate_keys E (read_text E X).2, e.key = code e.ch) ∧
      data2bitfield E (read_text E X).1 (calculate_keys E (read_text E X).2) =
        .ok (E.sort char_cmp (calculate_keys E (read_text E X).2),
          (X.map (fun s => keyBits (code s))).flatten ++ keyBits (code 0)) ∧
      ((X.map (fun s => keyBits (code s))).flatten ++ keyBits (code 0)).length =
        (X.map (fun s => (code s).length)).sum + (code 0).length := by
  have hfind : ∀ s, s ∈ X ∨ s = 0 →
      ∃ e ∈ calculate_keys E (read_text E X).2,
        e.ch = s ∧ e.key = codeOf (E.sort char_cmp (calculate_keys E (read_text E X).2)) s := by
    intro s hs
    obtain ⟨e, he, hch, hkey⟩ := codeOf_mem (lookup_input E hE X s hs)
    exact ⟨e, (hE.sort_perm char_cmp_strictWeak _).mem_iff.mp he, hch, hkey⟩
  refine ⟨codeOf (E.sort char_cmp (calculate_keys E (read_text E X).2)), hfind, ?_, ?_, ?_⟩
  · intro h0 e he
    have hnd : ((calculate_keys E (read_text E X).2).map (fun e => e.ch)).Nodup :=
      (calculate_keys_symbols E hE _).nodup_iff.mpr ((read_text_symbols E hE X).2 h0)
    have hin : e.ch ∈ X ∨ e.ch = 0 :=
      ((read_text_symbols E hE X).1 e.ch).mp
        ((calculate_keys_symbols E hE _).mem_iff.mp (List.mem_map_of_mem _ he))
    obtain ⟨e2, he2, hch, hkey⟩ := hfind e.ch hin
    rw [← hkey, List.inj_on_of_nodup_map hnd he2 he hch]
  · rw [data2bitfield_ok E hE X]
    simp
  · simp [keyBits, Function.comp_def]

/-- C6 (bit packing) at the input `0, 0, A`: `read_text` builds the counted
entry of the character `0` (count 2), the entry of `A` and, last, the
sentinel entry (character `0`, count 1), and `calculate_keys` gives them the
codes `0`, `10` and `11`.  `data2bitfield` packs `0, 0, 10` for the three
characters and then `0`, the code of the counted entry that its lookup of
`'\0'` finds, instead of the code `11` of the sentinel entry: whatever code is
taken for each character of the input, the packed bits are not these codes
followed by the sentinel entry's code, and their number, five, is not the sum
of the code lengths of the characters plus the length of the sentinel
entry's code. -/
theorem data2bitfield_nul_input :
    (read_text Env.ref [0, 0, 65]).2 = [⟨[], 0, 2⟩, ⟨[], 65, 1⟩, ⟨[], 0, 1⟩] ∧
    calculate_keys Env.ref (read_text Env.ref [0, 0, 65]).2 =
      [⟨['0'], 0, 2⟩, ⟨['1', '0'], 65, 1⟩, ⟨['1', '1'], 0, 1⟩] ∧
    data2bitfield Env.ref (read_text Env.ref [0, 0, 65]).1
        (calculate_keys Env.ref (read_text Env.ref [0, 0, 65]).2) =
      .ok ([⟨['0'], 0, 2⟩, ⟨['1', '1'], 0, 1⟩, ⟨['1', '0'], 65, 1⟩],
        [false, false, true, false, false]) ∧
    (∀ code : wchar_t → List Char,
      [false, false, true, false, false] ≠
        (([0, 0, 65] : List wchar_t).map (fun s => keyBits (code s))).flatten
          ++ keyBits ['1', '1']) ∧
    (∀ code : wchar_t → List Char, (code 0 = ['0'] ∨ code 0 = ['1', '1']) →
      code 65 = ['1', '0'] →
      [false, false, true, false, false].length ≠
        (([0, 0, 65] : List wchar_t).map (fun s => (code s).length)).sum
          + ['1', '1'].length) := by
  refine ⟨rfl, rfl, rfl, fun code h => ?_, fun code h0 h65 => ?_⟩
  · have h2 := congrArg List.getLast? h
    simp [keyBits] at h2
  · rcases h0 with h0 | h0 <;> simp [h0, h65]

/-! ## Claims about `decode` -/

/-- C1 (round trip) at the input made of the single character `0`: `encode`
succeeds and `decode` of what it wrote returns normally with no output at
all, so the character is lost. -/
theorem round_trip_nul_input :
    encode Env.ref [0] =
      .ok (CONTROL_NUMBER, [⟨['0'], 0, 1⟩, ⟨['1'], 0, 1⟩], [false, false]) ∧
    decode Env.ref CONTROL_NUMBER [⟨['0'], 0, 1⟩, ⟨['1'], 0, 1⟩] [false, false]
      = ([], .done) :=
  ⟨rfl, by decide⟩

/-- C5 (magic check): when the leading integer differs from `CONTROL_NUMBER`,
`decode` fails with the validation message and no output whatever the table
and the bits are; when it equals `CONTROL_NUMBER` that message is never
raised. -/
theorem decode_magic_check (E : Env) (contnum : Nat) (items : List item_t) (bits : List Bool) :
    (contnum ≠ CONTROL_NUMBER →
      decode E contnum items bits = ([], .thrown "Decode error: fail check control number")) ∧
    (decode E CONTROL_NUMBER items bits).2
      ≠ .thrown "Decode error: fail check control number" := by
  constructor
  · intro h
    simp [decode, h]
  · intro h
    have hd : decode E CONTROL_NUMBER items bits =
        ((decode E CONTROL_NUMBER items bits).1,
          .thrown "Decode error: fail check control number") := by
      rw [← h]
    simp only [decode, ne_eq, not_true_eq_false, if_false] at hd
    have := decodeLoop_thrown_msg _ _ _ _ _ _ hd
    exact absurd this (by decide)

theorem decode_magic_check_witness :
    (0 ≠ CONTROL_NUMBER ∧
      decode Env.ref 0 [⟨['0'], 65, 1⟩, ⟨['1'], 0, 1⟩] [false, true]
        = ([], .thrown "Decode error: fail check control number")) ∧
    (decode Env.ref CONTROL_NUMBER [⟨['0'], 65, 1⟩, ⟨['1'], 0, 1⟩] [false, true]).2
      ≠ .thrown "Decode error: fail check control number" :=
  ⟨⟨by decide,
    (decode_magic_check Env.ref 0 [⟨['0'], 65, 1⟩, ⟨['1'], 0, 1⟩] [false, true]).1 (by decide)⟩,
    (decode_magic_check Env.ref 0 [⟨['0'], 65, 1⟩, ⟨['1'], 0, 1⟩] [false, true]).2⟩

/-- C4 (truncation), counterexample: the bits of the input `A` cut after the
code of `A` are a proper part of the encoded bits, and `decode` returns
normally with output `A` instead of throwing. -/
theorem truncation_at_code_boundary :
    encode Env.ref [65] = .ok (CONTROL_NUMBER, [⟨['1'], 0, 1⟩, ⟨['0'], 65, 1⟩], [false, true]) ∧
    [false] <+: [false, true] ∧ [false] ≠ [false, true] ∧
    decode Env.ref CONTROL_NUMBER [⟨['1'], 0, 1⟩, ⟨['0'], 65, 1⟩] [false] = ([65], .done) :=
  ⟨rfl, ⟨[true], rfl⟩, by decide, by decide⟩

/-- C4 (truncation), amended: for every input `X` without the character `0`,
`encode` succeeds and its bits are the codes of the characters of `X`
followed by the code of the sentinel; every proper initial part `p` of these
bits is the codes of the first `j` characters of `X` followed by a proper
part `q` of the next code (the code of character `j` of `X`, or of the
sentinel when `j` is the length of `X`), no larger number of codes of `X`
lies completely in `p`, and `decode` with the table of `X` on `p` emits
exactly these first `j` characters; after them it throws "Decode error" when
`p` ends inside a code (`q` is not empty) and returns normally when `p` ends
exactly after the `j`-th code (`q` is empty). -/
theorem decode_truncated_bits (E : Env) (hE : E.Conforming) (X : List wchar_t)
    (h0 : (0 : wchar_t) ∉ X) :
    ∃ items bits, encode E X = .ok (CONTROL_NUMBER, items, bits) ∧
      bits = ((X ++ [0]).map (fun t => keyBits (codeOf items t))).flatten ∧
      ∀ p, p <+: bits → p ≠ bits →
        ∃ j q, j ≤ X.length ∧
          p = ((X.take j).map (fun t => keyBits (codeOf items t))).flatten ++ q ∧
          q <+: keyBits (codeOf items ((X ++ [0]).getD j 0)) ∧
          q ≠ keyBits (codeOf items ((X ++ [0]).getD j 0)) ∧
          (∀ i, i ≤ X.length →
            ((X.take i).map (fun t => keyBits (codeOf items t))).flatten <+: p → i ≤ j) ∧
          decode E CONTROL_NUMBER items p =
            (X.take j, if q = [] then .done else .thrown "Decode error") := by
  refine ⟨_, _, encode_ok E hE X, rfl, fun p hp hne => ?_⟩
  by_cases hX : X = []
  · subst hX
    obtain ⟨e, he, _, hkey⟩ := codeOf_mem (lookup_input E hE [] 0 (Or.inr rfl))
    have hi : E.iter [] = [] := List.Perm.eq_nil (hE.iter_perm [])
    have hrt : (read_text E []).2 = [⟨[], 0, 1⟩] := by
      simp [read_text, countSyms, hi]
    have hck : calculate_keys E (read_text E []).2 = [⟨[], 0, 1⟩] := by
      rw [hrt]
      rfl
    have hk : e.key = [] := by
      have := (hE.sort_perm char_cmp_strictWeak _).mem_iff.mp he
      rw [hck, List.mem_singleton] at this
      rw [this]
    simp only [List.nil_append, List.map_cons, List.map_nil, List.flatten_cons,
      List.flatten_nil, List.append_nil] at hp hne
    rw [← hkey, hk] at hp hne
    simp only [keyBits, List.map_nil, List.prefix_nil] at hp hne
    exact absurd hp hne
  · obtain ⟨hs, hg, hf⟩ := decode_table E hE X hX
    simp only [List.map_append, List.map_cons, List.map_nil, List.flatten_append,
      List.flatten_cons, List.flatten_nil, List.append_nil] at hp hne
    obtain ⟨j, q, hj, hpq, hq1, hq2, hdec⟩ := decodeLoop_truncated _ hs hg
      (fun t => (lookupSym (E.sort char_cmp (calculate_keys E (read_text E X).2)) t).getD default)
      0 (hf 0 (Or.inr rfl)).1 X [] p
      (fun t ht => ⟨(hf t (Or.inl ht)).1, (hf t (Or.inl ht)).2, fun h => h0 (h ▸ ht)⟩) hp hne
    refine ⟨j, q, hj, hpq, hq1, hq2, fun i hi hpre => ?_, ?_⟩
    · rw [hpq] at hpre
      exact complete_codes_maximal
        (fun t => keyBits (codeOf (E.sort char_cmp (calculate_keys E (read_text E X).2)) t))
        0 X j i q hi hpre hq1 hq2
    · simp only [decode, ne_eq, not_true_eq_false, if_false]
      rw [hdec]
      simp

theorem decode_truncated_bits_witness :
    Env.ref.Conforming ∧ (0 : wchar_t) ∉ [(65 : wchar_t), 66] ∧
    ∃ items bits, encode Env.ref [65, 66] = .ok (CONTROL_NUMBER, items, bits) ∧
      bits = ((([65, 66] : List wchar_t) ++ [0]).map
        (fun t => keyBits (codeOf items t))).flatten ∧
      ∀ p, p <+: bits → p ≠ bits →
        ∃ j q, j ≤ [(65 : wchar_t), 66].length ∧
          p = ((([65, 66] : List wchar_t).take j).map
            (fun t => keyBits (codeOf items t))).flatten ++ q ∧
          q <+: keyBits (codeOf items ((([65, 66] : List wchar_t) ++ [0]).getD j 0)) ∧
          q ≠ keyBits (codeOf items ((([65, 66] : List wchar_t) ++ [0]).getD j 0)) ∧
          (∀ i, i ≤ [(65 : wchar_t), 66].length →
            ((([65, 66] : List wchar_t).take i).map
              (fun t => keyBits (codeOf items t))).flatten <+: p → i ≤ j) ∧
          decode Env.ref CONTROL_NUMBER items p =
            (([65, 66] : List wchar_t).take j,
              if q = [] then .done else .thrown "Decode error") :=
  ⟨Env.ref_conforming, by decide,
    decode_truncated_bits Env.ref Env.ref_conforming [65, 66] (by decide)⟩

/-- C7 (bits after the sentinel), counterexample: for the empty input the
table is the single sentinel entry with the empty code and no bit is packed;
with one more bit appended the lookup of `decode` runs off the table, while
on the encoded bits alone `decode` returns normally. -/
theorem trailing_bits_empty_input :
    encode Env.ref [] = .ok (CONTROL_NUMBER, [⟨[], 0, 1⟩], []) ∧
    decode Env.ref CONTROL_NUMBER [⟨[], 0, 1⟩] ([] ++ [true]) = ([], .undefined) ∧
    decode Env.ref CONTROL_NUMBER [⟨[], 0, 1⟩] [] = ([], .done) :=
  ⟨rfl, by decide, by decide⟩

/-- C7 (bits after the sentinel), amended: for every non-empty input `X` and
every bit sequence `S`, `decode` with the table of `X` on the encoded bits of
`X` followed by `S` gives the same output and the same result as on the
encoded bits alone, and that run ends normally. -/
theorem decode_ignores_trailing_bits (E : Env) (hE : E.Conforming) (X : List wchar_t)
    (hX : X ≠ []) :
    ∃ items bits, encode E X = .ok (CONTROL_NUMBER, items, bits) ∧
      (decode E CONTROL_NUMBER items bits).2 = .done ∧
      ∀ S, decode E CONTROL_NUMBER items (bits ++ S) = decode E CONTROL_NUMBER items bits := by
  refine ⟨_, _, encode_ok E hE X, ?_⟩
  obtain ⟨hs, hg, hf⟩ := decode_table E hE X hX
  have hall : ∀ t ∈ X ++ [0],
      (lookupSym (E.sort char_cmp (calculate_keys E (read_text E X).2)) t).getD default ∈
          E.sort key_cmp (E.sort char_cmp (calculate_keys E (read_text E X).2)) ∧
      ((lookupSym (E.sort char_cmp (calculate_keys E (read_text E X).2)) t).getD default).ch
        = t := fun t ht => hf t (by simpa using ht)
  have hrun := fun S => decodeLoop_symbols _ hs hg
    (fun t => (lookupSym (E.sort char_cmp (calculate_keys E (read_text E X).2)) t).getD default)
    (X ++ [0]) [] S hall (by simp)
  have hrun0 := hrun []
  rw [List.append_nil] at hrun0
  simp only [decode, ne_eq, not_true_eq_false, if_false, codeOf]
  refine ⟨by rw [hrun0], fun S => ?_⟩
  rw [hrun S, hrun0]

theorem decode_ignores_trailing_bits_witness :
    Env.ref.Conforming ∧ [(65 : wchar_t), 66] ≠ [] ∧
    ∃ items bits, encode Env.ref [65, 66] = .ok (CONTROL_NUMBER, items, bits) ∧
      (decode Env.ref CONTROL_NUMBER items bits).2 = .done ∧
      ∀ S, decode Env.ref CONTROL_NUMBER items (bits ++ S)
        = decode Env.ref CONTROL_NUMBER items bits :=
  ⟨Env.ref_conforming, by decide,
    decode_ignores_trailing_bits Env.ref Env.ref_conforming [65, 66] (by decide)⟩

/-- C10 (no partial output on failure), counterexample: with the table of the
input `A, B` and the bits of `A` followed by one more bit, the loop throws
"Decode error" after the symbol `A` has been emitted. -/
theorem partial_output_before_error :
    encode Env.ref [65, 66] =
      .ok (CONTROL_NUMBER, [⟨['0', '1'], 0, 1⟩, ⟨['0', '0'], 65, 1⟩, ⟨['1'], 66, 1⟩],
        [false, false, true, false, true]) ∧
    decodeLoop (Env.ref.sort key_cmp [⟨['0', '1'], 0, 1⟩, ⟨['0', '0'], 65, 1⟩, ⟨['1'], 66, 1⟩])
      [] [] [false, false, false] = ([65], .thrown "Decode error") :=
  ⟨rfl, by decide⟩

/-- C10 (no partial output on failure), amended: for every table and bit
sequence on which the decode loop fails with an error, the error is
"Decode error" and the bits are the codes of a sequence `es` of table
entries, each the first match that the lookup finds in its pass of the inner
loop and none carrying the character `0`, followed by a non-empty rest `q`
inside which no lookup ends the inner loop; the symbols emitted before the
failure are exactly the characters of `es`, in order: every code completed
before the point of failure has its symbol in the output.  The table and the
bits alone determine `es` and `q` (`thrown_codes_unique`). -/
theorem decode_error_output (tbl : List item_t) (bits : List Bool) (o : List wchar_t)
    (m : String) (h : decodeLoop tbl [] [] bits = (o, .thrown m)) :
    m = "Decode error" ∧
    ∃ (es : List item_t) (q : List Bool),
      bits = (es.map (fun e => keyBits e.key)).flatten ++ q ∧
      (∀ e ∈ es, FirstCode tbl e ∧ BinaryKey e.key ∧ e.ch ≠ 0) ∧
      o = es.map (fun e => e.ch) ∧ q ≠ [] ∧
      ∀ r, r ≠ [] → r <+: q → ¬ Matched tbl (r.map bitChar) := by
  refine ⟨decodeLoop_thrown_msg tbl bits [] [] o m h, ?_⟩
  obtain ⟨es, q, h1, h2, h3, h4, h5⟩ :=
    decodeLoop_thrown_codes tbl bits.length bits [] o m (Nat.le_refl _) h
  exact ⟨es, q, h1, h2, by simpa using h3, h4, h5⟩

theorem decode_error_output_witness :
    decodeLoop [⟨['0', '0'], 65, 1⟩, ⟨['0', '1'], 0, 1⟩, ⟨['1'], 66, 1⟩] [] []
        [false, false, false] = ([65], .thrown "Decode error") ∧
    "Decode error" = "Decode error" ∧
    ∃ (es : List item_t) (q : List Bool),
      [false, false, false] = (es.map (fun e => keyBits e.key)).flatten ++ q ∧
      (∀ e ∈ es,
        FirstCode [⟨['0', '0'], 65, 1⟩, ⟨['0', '1'], 0, 1⟩, ⟨['1'], 66, 1⟩] e ∧
        BinaryKey e.key ∧ e.ch ≠ 0) ∧
      [65] = es.map (fun e => e.ch) ∧ q ≠ [] ∧
      ∀ r, r ≠ [] → r <+: q →
        ¬ Matched [⟨['0', '0'], 65, 1⟩, ⟨['0', '1'], 0, 1⟩, ⟨['1'], 66, 1⟩] (r.map bitChar) :=
  ⟨by decide,
    decode_error_output [⟨['0', '0'], 65, 1⟩, ⟨['0', '1'], 0, 1⟩, ⟨['1'], 66, 1⟩]
      [false, false, false] [65] "Decode error" (by decide)⟩

/-! ## Degenerate tables and the round trip -/

theorem read_text_nil (E : Env) (hE : E.Conforming) : (read_text E []).2 = [⟨[], 0, 1⟩] := by
  have hi : E.iter [] = [] := List.Perm.eq_nil (hE.iter_perm [])
  simp [read_text, countSyms, hi]

theorem sort_singleton (E : Env) (hE : E.Conforming) {cmp : item_t → item_t → Bool}
    (hc : StrictWeak cmp) (e : item_t) : E.sort cmp [e] = [e] :=
  List.perm_singleton.mp (hE.sort_perm hc [e])

/-- For the empty input `encode` writes the table made of the sentinel entry
alone, with the empty code, and no bit. -/
theorem encode_nil (E : Env) (hE : E.Conforming) :
    encode E [] = .ok (CONTROL_NUMBER, [⟨[], 0, 1⟩], []) := by
  rw [encode_ok E hE []]
  have hck : calculate_keys E (read_text E []).2 = [⟨[], 0, 1⟩] := by
    rw [read_text_nil E hE]
    rfl
  rw [hck, sort_singleton E hE char_cmp_strictWeak]
  rfl

theorem takeWhile_no_sentinel (X : List wchar_t) (h0 : (0 : wchar_t) ∉ X) :
    X.takeWhile (fun t => decide (t ≠ 0)) = X := by
  induction X with
  | nil => rfl
  | cons x xs ih =>
    have hx : x ≠ 0 := fun h => h0 (h ▸ List.mem_cons_self _ _)
    have hxs : (0 : wchar_t) ∉ xs := fun h => h0 (List.mem_cons_of_mem _ h)
    rw [List.takeWhile_cons, if_pos (by simpa using hx), ih hxs]

/-- C11 (degenerate table): for every table with fewer than two entries
`calculate_keys` returns the table unchanged, so a table whose codes are
empty keeps them empty; for the empty input the table is the single sentinel
entry with the empty code, before and after `calculate_keys`, and the packed
bit sequence has length 0. -/
theorem calculate_keys_degenerate (E : Env) (hE : E.Conforming) :
    (∀ items : List item_t, items.length < 2 → calculate_keys E items = items) ∧
    (∀ items : List item_t, items.length < 2 → (∀ e ∈ items, e.key = []) →
      ∀ e ∈ calculate_keys E items, e.key = []) ∧
    (read_text E []).2 = [⟨[], 0, 1⟩] ∧
    calculate_keys E (read_text E []).2 = [⟨[], 0, 1⟩] ∧
    ∃ sorted bits,
      data2bitfield E (read_text E []).1 (calculate_keys E (read_text E []).2)
        = .ok (sorted, bits) ∧ bits.length = 0 := by
  have hunch : ∀ items : List item_t, items.length < 2 → calculate_keys E items = items := by
    intro items h
    simp [calculate_keys, h]
  refine ⟨hunch, ?_, read_text_nil E hE, ?_, ?_⟩
  · intro items h hk e he
    rw [hunch items h] at he
    exact hk e he
  · rw [read_text_nil E hE]
    rfl
  · refine ⟨_, _, data2bitfield_ok E hE [], ?_⟩
    have hck : calculate_keys E (read_text E []).2 = [⟨[], 0, 1⟩] := by
      rw [read_text_nil E hE]
      rfl
    rw [hck, sort_singleton E hE char_cmp_strictWeak]
    rfl

theorem calculate_keys_degenerate_witness :
    Env.ref.Conforming ∧
    (∀ items : List item_t, items.length < 2 → calculate_keys Env.ref items = items) ∧
    (∀ items : List item_t, items.length < 2 → (∀ e ∈ items, e.key = []) →
      ∀ e ∈ calculate_keys Env.ref items, e.key = []) ∧
    (read_text Env.ref []).2 = [⟨[], 0, 1⟩] ∧
    calculate_keys Env.ref (read_text Env.ref []).2 = [⟨[], 0, 1⟩] ∧
    ∃ sorted bits,
      data2bitfield Env.ref (read_text Env.ref []).1
        (calculate_keys Env.ref (read_text Env.ref []).2) = .ok (sorted, bits) ∧
      bits.length = 0 :=
  ⟨Env.ref_conforming, calculate_keys_degenerate Env.ref Env.ref_conforming⟩

/-- C16 (round trip without the sentinel code point): for every input `X`
that does not contain the character `0`, `encode` succeeds and the decode
loop on the table and bits it wrote returns normally with output exactly
`X`. -/
theorem round_trip_without_nul (E : Env) (hE : E.Conforming) (X : List wchar_t)
    (h0 : (0 : wchar_t) ∉ X) :
    ∃ items bits, encode E X = .ok (CONTROL_NUMBER, items, bits) ∧
      decode E CONTROL_NUMBER items bits = (X, .done) := by
  by_cases hX : X = []
  · subst hX
    refine ⟨_, _, encode_nil E hE, ?_⟩
    simp [decode, decodeLoop]
  · obtain ⟨items, bits, henc, hdec⟩ := decode_encode E hE X hX
    rw [takeWhile_no_sentinel X h0] at hdec
    exact ⟨items, bits, henc, hdec⟩

theorem round_trip_without_nul_witness :
    Env.ref.Conforming ∧ (0 : wchar_t) ∉ [(72 : wchar_t), 105, 33, 33] ∧
    ∃ items bits, encode Env.ref [72, 105, 33, 33] = .ok (CONTROL_NUMBER, items, bits) ∧
      decode Env.ref CONTROL_NUMBER items bits = ([72, 105, 33, 33], .done) :=
  ⟨Env.ref_conforming, by decide,
    round_trip_without_nul Env.ref Env.ref_conforming [72, 105, 33, 33] (by decide)⟩

/-- C12 (concrete scenario): for the input `A,A,A,A,B,B,C` the table built by
`read_text` holds exactly the counts `A:4`, `B:2`, `C:1` (in the order the
map is iterated) followed by the sentinel with count 1, and `encode` followed
by `decode` gives back `A,A,A,A,B,B,C` with a normal return. -/
theorem scenario_aaaabbc (E : Env) (hE : E.Conforming) :
    (∃ l : List (wchar_t × Int), l.Perm [(65, 4), (66, 2), (67, 1)] ∧
      (read_text E [65, 65, 65, 65, 66, 66, 67]).2
        = l.map (fun p => (⟨[], p.1, p.2⟩ : item_t)) ++ [⟨[], 0, 1⟩]) ∧
    ∃ items bits,
      encode E [65, 65, 65, 65, 66, 66, 67] = .ok (CONTROL_NUMBER, items, bits) ∧
      decode E CONTROL_NUMBER items bits = ([65, 65, 65, 65, 66, 66, 67], .done) := by
  refine ⟨⟨E.iter (countSyms [65, 65, 65, 65, 66, 66, 67]), ?_, rfl⟩, ?_⟩
  · have hc : countSyms [65, 65, 65, 65, 66, 66, 67] = [(65, 4), (66, 2), (67, 1)] := by decide
    rw [← hc]
    exact hE.iter_perm _
  · obtain ⟨items, bits, henc, hdec⟩ :=
      decode_encode E hE [65, 65, 65, 65, 66, 66, 67] (by decide)
    refine ⟨items, bits, henc, ?_⟩
    rw [hdec]
    rfl

theorem scenario_aaaabbc_witness :
    Env.ref.Conforming ∧
    (∃ l : List (wchar_t × Int), l.Perm [(65, 4), (66, 2), (67, 1)] ∧
      (read_text Env.ref [65, 65, 65, 65, 66, 66, 67]).2
        = l.map (fun p => (⟨[], p.1, p.2⟩ : item_t)) ++ [⟨[], 0, 1⟩]) ∧
    ∃ items bits,
      encode Env.ref [65, 65, 65, 65, 66, 66, 67] = .ok (CONTROL_NUMBER, items, bits) ∧
      decode Env.ref CONTROL_NUMBER items bits = ([65, 65, 65, 65, 66, 66, 67], .done) :=
  ⟨Env.ref_conforming, scenario_aaaabbc Env.ref Env.ref_conforming⟩

/-! ## `calculate_keys`: the loop and its start -/

theorem calculate_keys_eq (E : Env) (items : List item_t) (h : 2 ≤ items.length) :
    calculate_keys E items =
      (List.range' 2 ((seedKeys E items).length - 2)).foldl assignStep (seedKeys E items) := by
  have hlen : ¬ items.length < 2 := by omega
  simp only [calculate_keys, if_neg hlen, seedKeys]

theorem seedKeys_spec (E : Env) (hE : E.Conforming) (items : List item_t)
    (h : 2 ≤ items.length) :
    (seedKeys E items).length = items.length ∧
    (seedKeys E items).map symCount = (E.sort count_cmp items.reverse).reverse.map symCount ∧
    ∀ a, keyAt (seedKeys E items) a =
      if a = 1 then ['1'] else if a = 0 then ['0']
      else keyAt (E.sort count_cmp items.reverse).reverse a := by
  have hs : (E.sort count_cmp items.reverse).reverse.length = items.length := by
    rw [List.length_reverse, (hE.sort_perm count_cmp_strictWeak _).length_eq,
      List.length_reverse]
  unfold seedKeys
  generalize (E.sort count_cmp items.reverse).reverse = s at hs
  refine ⟨by simp [hs], ?_, fun a => ?_⟩
  · rw [symCount_set_key, symCount_set_key]
  · rw [keyAt_set_key _ _ _ _ (by rw [List.length_set]; omega),
      keyAt_set_key _ _ _ _ (by omega)]

theorem completeUpTo_assignStep (l : List item_t) (i : Nat) (hi : i < l.length) (h0 : 0 < i)
    (inv : CompleteUpTo l i) : CompleteUpTo (assignStep l i) (i + 1) := by
  have hm := findMin_lt l i (l.getD i default).c h0
  have hk := fun a => keyAt_assignStep l i a hi h0
  generalize findMin l i (l.getD i default).c = m at hm hk
  intro w hw
  obtain ⟨a, ha, hcase⟩ := inv w hw
  by_cases ham : a = m
  · subst ham
    rcases hcase with h | h
    · refine ⟨a, by omega, Or.inl ?_⟩
      rw [hk a, if_pos rfl]
      exact h.trans (List.prefix_append _ _)
    · obtain ⟨r, hr⟩ := h
      cases r with
      | nil =>
        refine ⟨a, by omega, Or.inl ?_⟩
        rw [hk a, if_pos rfl, ← hr, List.append_nil]
        exact List.prefix_append _ _
      | cons x r =>
        have hx : x = '0' ∨ x = '1' := hw x (by rw [← hr]; simp)
        rcases hx with hx | hx
        · refine ⟨a, by omega, Or.inr ?_⟩
          rw [hk a, if_pos rfl, ← hr, hx]
          exact ⟨r, by simp⟩
        · refine ⟨i, by omega, Or.inr ?_⟩
          rw [hk i, if_neg (by omega), if_pos rfl, ← hr, hx]
          exact ⟨r, by simp⟩
  · refine ⟨a, by omega, ?_⟩
    rw [hk a, if_neg ham, if_neg (by omega)]
    exact hcase

theorem assignLoop_complete : ∀ (k : Nat) (l : List item_t) (i : Nat), 0 < i →
    i + k ≤ l.length → CompleteUpTo l i →
    CompleteUpTo ((List.range' i k).foldl assignStep l) (i + k)
  | 0, l, i, _, _, inv => by simpa using inv
  | k + 1, l, i, h0, hik, inv => by
    have hi : i < l.length := by omega
    have ih := assignLoop_complete k (assignStep l i) (i + 1) (by omega)
      (by rw [assignStep_length]; omega) (completeUpTo_assignStep l i hi h0 inv)
    simp only [List.range'_succ, List.foldl_cons]
    rwa [show i + 1 + k = i + (k + 1) by omega] at ih

theorem completeUpTo_seed (E : Env) (hE : E.Conforming) (items : List item_t)
    (h : 2 ≤ items.length) : CompleteUpTo (seedKeys E items) 2 := by
  have hk := (seedKeys_spec E hE items h).2.2
  intro w hw
  cases w with
  | nil => exact ⟨0, by omega, Or.inl List.nil_prefix⟩
  | cons x r =>
    rcases hw x (List.mem_cons_self _ _) with hx | hx
    · refine ⟨0, by omega, Or.inr ?_⟩
      rw [hk 0, hx]
      exact ⟨r, rfl⟩
    · refine ⟨1, by omega, Or.inr ?_⟩
      rw [hk 1, hx]
      exact ⟨r, rfl⟩

/-- From two entries on, the codes assigned by `calculate_keys` form a complete
set. -/
theorem calculate_keys_complete (E : Env) (hE : E.Conforming) (items : List item_t)
    (h : 2 ≤ items.length) : Complete (calculate_keys E items) := by
  have hlen := (seedKeys_spec E hE items h).1
  have hloop := assignLoop_complete ((seedKeys E items).length - 2) (seedKeys E items) 2
    (by omega) (by omega) (completeUpTo_seed E hE items h)
  rw [← calculate_keys_eq E items h] at hloop
  intro w hw
  obtain ⟨a, ha, hcase⟩ := hloop w hw
  have hal : a < (calculate_keys E items).length := by
    rw [(calculate_keys_spec E hE items).1]
    omega
  refine ⟨(calculate_keys E items)[a], List.getElem_mem _, ?_⟩
  simpa [keyAt, List.getElem?_eq_getElem hal] using hcase

theorem complete_of_perm {l1 l2 : List item_t} (hp : l1.Perm l2) (h : Complete l1) :
    Complete l2 := by
  intro w hw
  obtain ⟨e, he, hcase⟩ := h w hw
  exact ⟨e, hp.mem_iff.mp he, hcase⟩

/-! ## `decode`: the lookups stay inside the table -/

theorem binaryKey_concat {key : List Char} (hk : BinaryKey key) (b : Bool) :
    BinaryKey (key ++ [bitChar b]) := by
  intro x hx
  rcases List.mem_append.mp hx with h | h
  · exact hk x h
  · rw [List.mem_singleton] at h
    cases b
    · exact Or.inl h
    · exact Or.inr h

/-- With a complete table of good codes, ordered by code, no lookup of the
loop returns the end position, whatever the bits are. -/
theorem decodeLoop_defined (tbl : List item_t) (hs : SortedBy key_cmp tbl) (hg : GoodCodes tbl)
    (hc : Complete tbl) :
    ∀ (bits : List Bool) (key : List Char) (out : List wchar_t),
      BinaryKey key → (∃ e ∈ tbl, key <+: e.key ∧ key ≠ e.key) →
      (decodeLoop tbl key out bits).2 ≠ .undefined
  | [], key, out, _, _ => by
    simp only [decodeLoop]
    split <;> simp
  | b :: rest, key, out, hb, ⟨e, he, hpre, hne⟩ => by
    have hb2 := binaryKey_concat hb b
    have hex : ∃ e2 ∈ tbl, key ++ [bitChar b] <+: e2.key := by
      obtain ⟨e2, he2, hcase⟩ := hc _ hb2
      rcases hcase with h | h
      · exact ⟨e2, he2, h⟩
      · rcases List.prefix_concat_iff.mp h with h2 | h2
        · exact ⟨e2, he2, by rw [h2]⟩
        · exfalso
          have hee : e2 ≠ e := by
            intro heq
            rw [heq] at h2
            exact hne (hpre.eq_of_length (Nat.le_antisymm hpre.length_le h2.length_le))
          exact ((List.Pairwise.forall (fun _ _ h => prefixFree_symm h) hg.1) he2 he hee).1
            (h2.trans hpre)
    obtain ⟨e2, he2, s, hs2⟩ := hex
    obtain ⟨it, h1, h2, h3⟩ := lookup_key tbl hs hg.1 e2 he2 (key ++ [bitChar b]) s hs2.symm
    simp only [decodeLoop, h1]
    by_cases hnil : s = []
    · have hit := h2 hnil
      have hkey : it.key = key ++ [bitChar b] := by
        rw [hit, ← hs2, hnil, List.append_nil]
      rw [if_neg (by simp [hkey])]
      split
      · simp
      · exact decodeLoop_defined tbl hs hg hc rest [] _ (by intro x hx; simp at hx)
          ⟨e2, he2, List.nil_prefix, fun h => hg.2.2 e2 he2 h.symm⟩
    · rw [if_pos (h3 hnil)]
      refine decodeLoop_defined tbl hs hg hc rest _ out hb2 ⟨e2, he2, ⟨s, hs2⟩, ?_⟩
      intro h
      rw [← hs2] at h
      exact hnil (by simpa using h)

/-- C18 (decode lookup never runs off the table): for every table produced by
`calculate_keys` from at least two entries the codes form a complete set
(every string of `0` and `1` starts a code or has a code as an initial part),
and for every bit sequence the decode loop on that table sorted by code never
gets the end position from `lower_bound`. -/
theorem decode_lookup_in_table (E : Env) (hE : E.Conforming) (items : List item_t)
    (h : 2 ≤ items.length) :
    (∀ w : List Char, (∀ x ∈ w, x = '0' ∨ x = '1') →
      ∃ e ∈ calculate_keys E items, w <+: e.key ∨ e.key <+: w) ∧
    ∀ bits : List Bool,
      (decodeLoop (E.sort key_cmp (calculate_keys E items)) [] [] bits).2 ≠ .undefined := by
  have hc := calculate_keys_complete E hE items h
  refine ⟨hc, fun bits => ?_⟩
  have hg : GoodCodes (E.sort key_cmp (calculate_keys E items)) :=
    GoodCodes.perm (hE.sort_perm key_cmp_strictWeak _).symm (calculate_keys_good E hE items h)
  have hc2 : Complete (E.sort key_cmp (calculate_keys E items)) :=
    complete_of_perm (hE.sort_perm key_cmp_strictWeak _).symm hc
  obtain ⟨e, he, _⟩ := hc2 [] (by intro x hx; simp at hx)
  exact decodeLoop_defined _ (hE.sort_sorted key_cmp_strictWeak _) hg hc2 bits [] []
    (by intro x hx; simp at hx) ⟨e, he, List.nil_prefix, fun h => hg.2.2 e he h.symm⟩

theorem decode_lookup_in_table_witness :
    Env.ref.Conforming ∧ 2 ≤ [(⟨[], 65, 4⟩ : item_t), ⟨[], 66, 2⟩, ⟨[], 0, 1⟩].length ∧
    (∀ w : List Char, (∀ x ∈ w, x = '0' ∨ x = '1') →
      ∃ e ∈ calculate_keys Env.ref [⟨[], 65, 4⟩, ⟨[], 66, 2⟩, ⟨[], 0, 1⟩],
        w <+: e.key ∨ e.key <+: w) ∧
    ∀ bits : List Bool,
      (decodeLoop (Env.ref.sort key_cmp
        (calculate_keys Env.ref [⟨[], 65, 4⟩, ⟨[], 66, 2⟩, ⟨[], 0, 1⟩])) [] [] bits).2
        ≠ .undefined :=
  ⟨Env.ref_conforming, by decide,
    decode_lookup_in_table Env.ref Env.ref_conforming _ (by decide)⟩

/-! ## `calculate_keys`: the choice made by the inner loop -/

theorem findMin_fold_spec (f : Nat → Int) :
    ∀ (n : Nat),
      ((List.range n).foldl
        (fun (acc : Nat × Int) bb => if f bb < acc.2 then (bb, f bb) else acc) (0, f 0)).2
        = f ((List.range n).foldl
          (fun (acc : Nat × Int) bb => if f bb < acc.2 then (bb, f bb) else acc) (0, f 0)).1 ∧
      (∀ a, a < n → f ((List.range n).foldl
          (fun (acc : Nat × Int) bb => if f bb < acc.2 then (bb, f bb) else acc) (0, f 0)).1
        ≤ f a) ∧
      (∀ a, a < ((List.range n).foldl
          (fun (acc : Nat × Int) bb => if f bb < acc.2 then (bb, f bb) else acc) (0, f 0)).1 →
        f ((List.range n).foldl
          (fun (acc : Nat × Int) bb => if f bb < acc.2 then (bb, f bb) else acc) (0, f 0)).1
        < f a)
  | 0 => by simp
  | n + 1 => by
    obtain ⟨h1, h2, h3⟩ := findMin_fold_spec f n
    rw [List.range_succ, List.foldl_append]
    simp only [List.foldl_cons, List.foldl_nil]
    generalize (List.range n).foldl
      (fun (acc : Nat × Int) bb => if f bb < acc.2 then (bb, f bb) else acc) (0, f 0) = acc
      at h1 h2 h3
    by_cases hlt : f n < acc.2
    · rw [if_pos hlt]
      rw [h1] at hlt
      refine ⟨rfl, fun a ha => ?_, fun a ha => ?_⟩
      · by_cases han : a = n
        · rw [han]
        · exact le_of_lt (lt_of_lt_of_le hlt (h2 a (by omega)))
      · exact lt_of_lt_of_le hlt (h2 a ha)
    · rw [if_neg hlt]
      rw [h1] at hlt
      refine ⟨h1, fun a ha => ?_, h3⟩
      by_cases han : a = n
      · rw [han]
        exact not_lt.mp hlt
      · exact h2 a (by omega)

/-- The position chosen by the inner loop is the first one among `0 .. i-1`
with the least narrowed cost. -/
theorem findMin_spec (l : List item_t) (i : Nat) (c : Int) :
    (∀ a, a < i → cost (l.getD (findMin l i c) default) c ≤ cost (l.getD a default) c) ∧
    (∀ a, a < findMin l i c →
      cost (l.getD (findMin l i c) default) c < cost (l.getD a default) c) := by
  have h := findMin_fold_spec (fun a => cost (l.getD a default) c) i
  exact ⟨h.2.1, h.2.2⟩

theorem wrapInt32_of_fits (z : Int) (h1 : -2147483648 ≤ z) (h2 : z < 2147483648) :
    wrapInt32 z = z := by
  unfold wrapInt32
  omega

theorem stateAt_succ (E : Env) (items : List item_t) (i : Nat) (h2 : 2 ≤ i) :
    stateAt E items (i + 1) = assignStep (stateAt E items i) i := by
  unfold stateAt
  rw [show i + 1 - 2 = (i - 2) + 1 by omega, List.range'_concat, List.foldl_append]
  simp only [List.foldl_cons, List.foldl_nil]
  rw [show 2 + 1 * (i - 2) = i by omega]

theorem stateAt_length (E : Env) (hE : E.Conforming) (items : List item_t)
    (h : 2 ≤ items.length) (i : Nat) (hi : i ≤ items.length) :
    (stateAt E items i).length = items.length := by
  have hlen := (seedKeys_spec E hE items h).1
  unfold stateAt
  rw [(assignLoop_spec (i - 2) (seedKeys E items) 2 (by omega) (by omega)).1, hlen]

theorem calculate_keys_stateAt (E : Env) (hE : E.Conforming) (items : List item_t)
    (h : 2 ≤ items.length) : calculate_keys E items = stateAt E items items.length := by
  rw [calculate_keys_eq E items h, stateAt, (seedKeys_spec E hE items h).1]

theorem stateAt_symCount (E : Env) (hE : E.Conforming) (items : List item_t)
    (h : 2 ≤ items.length) (i : Nat) (hi : i ≤ items.length) :
    (stateAt E items i).map symCount
      = (E.sort count_cmp items.reverse).reverse.map symCount := by
  have hseed := seedKeys_spec E hE items h
  unfold stateAt
  rw [(assignLoop_spec (i - 2) (seedKeys E items) 2 (by omega) (by omega)).2.1, hseed.2.1]

/-- The loop of `calculate_keys` runs over a table whose counts are in
descending order. -/
theorem stateAt_descending (E : Env) (hE : E.Conforming) (items : List item_t)
    (h : 2 ≤ items.length) (i : Nat) (hi : i ≤ items.length) :
    ((stateAt E items i).map (fun e => e.c)).Pairwise (fun x y => y ≤ x) := by
  have hmap : (stateAt E items i).map (fun e => e.c)
      = ((stateAt E items i).map symCount).map Prod.snd := by
    simp [List.map_map, Function.comp_def, symCount]
  rw [hmap, stateAt_symCount E hE items h i hi, List.map_map, List.pairwise_map,
    List.pairwise_reverse]
  refine (hE.sort_sorted count_cmp_strictWeak items.reverse).imp ?_
  intro a b hab
  simpa [count_cmp, symCount] using hab

/-- C15 (greedy attachment step), counterexample: with the counts 2147483647,
5 and 1 the cost of the first entry, 2147483648, does not fit in an `int`; the
loop takes position 0 although position 1 has the smaller cost 6, and the
third entry gets the code `01` instead of `11`. -/
theorem greedy_step_overflow :
    stateAt Env.ref [⟨[], 120, 2147483647⟩, ⟨[], 121, 5⟩, ⟨[], 122, 1⟩] 2
      = [⟨['0'], 120, 2147483647⟩, ⟨['1'], 121, 5⟩, ⟨[], 122, 1⟩] ∧
    findMin [⟨['0'], 120, 2147483647⟩, ⟨['1'], 121, 5⟩, ⟨[], 122, 1⟩] 2 1 = 0 ∧
    exactCost ⟨['1'], 121, 5⟩ 1 < exactCost ⟨['0'], 120, 2147483647⟩ 1 ∧
    calculate_keys Env.ref [⟨[], 120, 2147483647⟩, ⟨[], 121, 5⟩, ⟨[], 122, 1⟩]
      = [⟨['0', '0'], 120, 2147483647⟩, ⟨['1'], 121, 5⟩, ⟨['0', '1'], 122, 1⟩] := by
  decide

/-- C15 (greedy attachment step), amended: in `calculate_keys` on a table of
at least two entries, the loop runs on the table sorted by descending count
and, for each position `i >= 2` for which the costs
`count(p) + len(code(p)) * count(e)` of the positions `0 .. i-1` fit in a
32-bit `int`, the iteration for the entry `e` at `i` picks the earliest
position `m` among `0 .. i-1` with the least cost; `e` receives the previous
code of `m` followed by `1`, the code of `m` is extended by `0`, and no other
code, symbol or count changes in that step. -/
theorem greedy_step (E : Env) (hE : E.Conforming) (items : List item_t) (i : Nat)
    (h2 : 2 ≤ i) (hi : i < items.length)
    (hfit : ∀ a, a < i →
      -2147483648 ≤ exactCost ((stateAt E items i).getD a default)
          ((stateAt E items i).getD i default).c ∧
      exactCost ((stateAt E items i).getD a default)
          ((stateAt E items i).getD i default).c < 2147483648) :
    calculate_keys E items = stateAt E items items.length ∧
    ((stateAt E items i).map (fun e => e.c)).Pairwise (fun x y => y ≤ x) ∧
    ∃ m, m < i ∧
      (∀ a, a < i →
        exactCost ((stateAt E items i).getD m default) ((stateAt E items i).getD i default).c
          ≤ exactCost ((stateAt E items i).getD a default)
            ((stateAt E items i).getD i default).c) ∧
      (∀ a, a < m →
        exactCost ((stateAt E items i).getD m default) ((stateAt E items i).getD i default).c
          < exactCost ((stateAt E items i).getD a default)
            ((stateAt E items i).getD i default).c) ∧
      keyAt (stateAt E items (i + 1)) i = keyAt (stateAt E items i) m ++ ['1'] ∧
      keyAt (stateAt E items (i + 1)) m = keyAt (stateAt E items i) m ++ ['0'] ∧
      (∀ a, a ≠ i → a ≠ m → keyAt (stateAt E items (i + 1)) a = keyAt (stateAt E items i) a) ∧
      (stateAt E items (i + 1)).map symCount = (stateAt E items i).map symCount := by
  have hn : 2 ≤ items.length := by omega
  have hlen := stateAt_length E hE items hn i (by omega)
  refine ⟨calculate_keys_stateAt E hE items hn,
    stateAt_descending E hE items hn i (by omega), ?_⟩
  rw [stateAt_succ E items i h2]
  generalize stateAt E items i = st at hlen hfit
  have hi2 : i < st.length := by omega
  have hcost : ∀ a, a < i →
      cost (st.getD a default) (st.getD i default).c
        = exactCost (st.getD a default) (st.getD i default).c :=
    fun a ha => wrapInt32_of_fits _ (hfit a ha).1 (hfit a ha).2
  have hm := findMin_lt st i (st.getD i default).c (by omega)
  have hspec := findMin_spec st i (st.getD i default).c
  have hk := fun a => keyAt_assignStep st i a hi2 (by omega)
  refine ⟨findMin st i (st.getD i default).c, hm, fun a ha => ?_, fun a ha => ?_, ?_, ?_,
    fun a hai ham => ?_, symCount_assignStep st i hi2 (by omega)⟩
  · rw [← hcost a ha, ← hcost _ hm]
    exact hspec.1 a ha
  · rw [← hcost a (by omega), ← hcost _ hm]
    exact hspec.2 a ha
  · rw [hk i, if_neg (by omega), if_pos rfl]
  · rw [hk _, if_pos rfl]
  · rw [hk a, if_neg ham, if_neg hai]

theorem greedy_step_witness :
    Env.ref.Conforming ∧ 2 ≤ 3 ∧ 3 < exampleTable.length ∧
    (∀ a, a < 3 →
      -2147483648 ≤ exactCost ((stateAt Env.ref exampleTable 3).getD a default)
          ((stateAt Env.ref exampleTable 3).getD 3 default).c ∧
      exactCost ((stateAt Env.ref exampleTable 3).getD a default)
          ((stateAt Env.ref exampleTable 3).getD 3 default).c < 2147483648) ∧
    calculate_keys Env.ref exampleTable = stateAt Env.ref exampleTable exampleTable.length ∧
    ((stateAt Env.ref exampleTable 3).map (fun e => e.c)).Pairwise (fun x y => y ≤ x) ∧
    ∃ m, m < 3 ∧
      (∀ a, a < 3 →
        exactCost ((stateAt Env.ref exampleTable 3).getD m default)
            ((stateAt Env.ref exampleTable 3).getD 3 default).c
          ≤ exactCost ((stateAt Env.ref exampleTable 3).getD a default)
            ((stateAt Env.ref exampleTable 3).getD 3 default).c) ∧
      (∀ a, a < m →
        exactCost ((stateAt Env.ref exampleTable 3).getD m default)
            ((stateAt Env.ref exampleTable 3).getD 3 default).c
          < exactCost ((stateAt Env.ref exampleTable 3).getD a default)
            ((stateAt Env.ref exampleTable 3).getD 3 default).c) ∧
      keyAt (stateAt Env.ref exampleTable (3 + 1)) 3
        = keyAt (stateAt Env.ref exampleTable 3) m ++ ['1'] ∧
      keyAt (stateAt Env.ref exampleTable (3 + 1)) m
        = keyAt (stateAt Env.ref exampleTable 3) m ++ ['0'] ∧
      (∀ a, a ≠ 3 → a ≠ m →
        keyAt (stateAt Env.ref exampleTable (3 + 1)) a
          = keyAt (stateAt Env.ref exampleTable 3) a) ∧
      (stateAt Env.ref exampleTable (3 + 1)).map symCount
        = (stateAt Env.ref exampleTable 3).map symCount :=
  ⟨Env.ref_conforming, by decide, by decide, by decide,
    greedy_step Env.ref Env.ref_conforming exampleTable 3 (by decide) (by decide) (by decide)⟩

/-! ## `calculate_keys`: the codes depend on the counts only -/

theorem Env.rev_conforming : Env.rev.Conforming :=
  ⟨fun cmp l hc => ⟨insertionSortBy_perm cmp l, insertionSortBy_sorted cmp hc l⟩,
    fun m => List.reverse_perm m⟩

theorem count_getD_of_map {l1 l2 : List item_t}
    (h : l1.map (fun e => e.c) = l2.map (fun e => e.c)) (a : Nat) :
    (l1.getD a default).c = (l2.getD a default).c := by
  have h1 : ∀ l : List item_t, (l.getD a default).c = ((l.map (fun e => e.c))[a]?).getD 0 := by
    intro l
    rw [List.getD_eq_getElem?_getD, List.getElem?_map]
    cases l[a]? <;> rfl
  rw [h1 l1, h1 l2, h]

theorem findMin_congr (l1 l2 : List item_t) (i : Nat) (c : Int) (h0 : 0 < i)
    (hc : l1.map (fun e => e.c) = l2.map (fun e => e.c))
    (hk : ∀ a, a < i → keyAt l1 a = keyAt l2 a) :
    findMin l1 i c = findMin l2 i c := by
  have hcost : ∀ a, a < i → cost (l1.getD a default) c = cost (l2.getD a default) c := by
    intro a ha
    have h1 := count_getD_of_map hc a
    have h2 := hk a ha
    simp only [keyAt] at h2
    simp only [cost, h1, h2]
  have hm1 := findMin_lt l1 i c h0
  have hm2 := findMin_lt l2 i c h0
  have hs1 := findMin_spec l1 i c
  have hs2 := findMin_spec l2 i c
  rcases Nat.lt_trichotomy (findMin l1 i c) (findMin l2 i c) with h | h | h
  · have h3 := hs2.2 _ h
    have h4 := hs1.1 _ hm2
    rw [hcost _ hm1, hcost _ hm2] at h4
    omega
  · exact h
  · have h3 := hs1.2 _ h
    have h4 := hs2.1 _ hm1
    rw [hcost _ hm1, hcost _ hm2] at h3
    omega

theorem agreeUpTo_assignStep (l1 l2 : List item_t) (i : Nat) (hi : i < l1.length)
    (h0 : 0 < i) (inv : AgreeUpTo l1 l2 i) :
    AgreeUpTo (assignStep l1 i) (assignStep l2 i) (i + 1) := by
  obtain ⟨hlen, hc, hk⟩ := inv
  have hi2 : i < l2.length := by omega
  have hmap : ∀ l : List item_t, l.map (fun e => e.c) = (l.map symCount).map Prod.snd := by
    intro l
    simp [List.map_map, Function.comp_def, symCount]
  have hm := findMin_congr l1 l2 i (l1.getD i default).c h0 hc hk
  rw [count_getD_of_map hc i] at hm
  have hlt := findMin_lt l1 i (l1.getD i default).c h0
  rw [count_getD_of_map hc i, hm] at hlt
  refine ⟨by rw [assignStep_length, assignStep_length, hlen], ?_, fun a ha => ?_⟩
  · rw [hmap (assignStep l1 i), hmap (assignStep l2 i), symCount_assignStep l1 i hi h0,
      symCount_assignStep l2 i hi2 h0, ← hmap, ← hmap, hc]
  · rw [keyAt_assignStep l1 i a hi h0, keyAt_assignStep l2 i a hi2 h0,
      count_getD_of_map hc i, hm, hk _ hlt]
    by_cases h1 : a = findMin l2 i (l2.getD i default).c
    · rw [if_pos h1, if_pos h1]
    · rw [if_neg h1, if_neg h1]
      by_cases h2 : a = i
      · rw [if_pos h2, if_pos h2]
      · rw [if_neg h2, if_neg h2]
        exact hk a (by omega)

theorem agreeUpTo_loop : ∀ (k : Nat) (l1 l2 : List item_t) (i : Nat), 0 < i →
    i + k ≤ l1.length → AgreeUpTo l1 l2 i →
    AgreeUpTo ((List.range' i k).foldl assignStep l1) ((List.range' i k).foldl assignStep l2)
      (i + k)
  | 0, l1, l2, i, _, _, inv => by simpa using inv
  | k + 1, l1, l2, i, h0, hik, inv => by
    have hi : i < l1.length := by omega
    have ih := agreeUpTo_loop k (assignStep l1 i) (assignStep l2 i) (i + 1) (by omega)
      (by rw [assignStep_length]; omega) (agreeUpTo_assignStep l1 l2 i hi h0 inv)
    simp only [List.range'_succ, List.foldl_cons]
    rwa [show i + 1 + k = i + (k + 1) by omega] at ih

/-- The counts of a table sorted by `std::sort` with `count_cmp` depend only
on the multiset of counts. -/
theorem sorted_counts_eq (E1 E2 : Env) (h1 : E1.Conforming) (h2 : E2.Conforming)
    (l1 l2 : List item_t) (hp : l1.Perm l2) :
    (E1.sort count_cmp l1).map (fun e => e.c) = (E2.sort count_cmp l2).map (fun e => e.c) := by
  have hperm : ((E1.sort count_cmp l1).map (fun e => e.c)).Perm
      ((E2.sort count_cmp l2).map (fun e => e.c)) :=
    (((h1.sort_perm count_cmp_strictWeak l1).trans hp).trans
      (h2.sort_perm count_cmp_strictWeak l2).symm).map _
  have hsorted : ∀ (E : Env), E.Conforming → ∀ l : List item_t,
      ((E.sort count_cmp l).map (fun e => e.c)).Sorted (fun x y => x ≤ y) := by
    intro E hE l
    unfold List.Sorted
    rw [List.pairwise_map]
    refine (hE.sort_sorted count_cmp_strictWeak l).imp ?_
    intro a b hab
    simpa [count_cmp] using hab
  exact List.eq_of_perm_of_sorted hperm (hsorted E1 h1 l1) (hsorted E2 h2 l2)

theorem agreeUpTo_seed (E1 E2 : Env) (h1 : E1.Conforming) (h2 : E2.Conforming)
    (items1 items2 : List item_t) (hp : items1.Perm items2) (hn : 2 ≤ items1.length) :
    AgreeUpTo (seedKeys E1 items1) (seedKeys E2 items2) 2 := by
  have hn2 : 2 ≤ items2.length := by rw [← hp.length_eq]; exact hn
  have hs1 := seedKeys_spec E1 h1 items1 hn
  have hs2 := seedKeys_spec E2 h2 items2 hn2
  have hmap : ∀ l : List item_t, l.map (fun e => e.c) = (l.map symCount).map Prod.snd := by
    intro l
    simp [List.map_map, Function.comp_def, symCount]
  refine ⟨by rw [hs1.1, hs2.1, hp.length_eq], ?_, fun a ha => ?_⟩
  · rw [hmap (seedKeys E1 items1), hmap (seedKeys E2 items2), hs1.2.1, hs2.2.1, ← hmap, ← hmap,
      List.map_reverse, List.map_reverse,
      sorted_counts_eq E1 E2 h1 h2 _ _
        (((List.reverse_perm items1).trans hp).trans (List.reverse_perm items2).symm)]
  · rw [hs1.2.2 a, hs2.2.2 a]
    have : a = 0 ∨ a = 1 := by omega
    rcases this with h | h <;> subst h <;> simp

/-- The (count, code) pairs after `calculate_keys` are the same, position by
position, for two tables that are permutations of each other, whatever the
two sorts do with equal counts. -/
theorem calculate_keys_countKey (E1 E2 : Env) (h1 : E1.Conforming) (h2 : E2.Conforming)
    (items1 items2 : List item_t) (hp : items1.Perm items2) :
    (calculate_keys E1 items1).map countKey = (calculate_keys E2 items2).map countKey := by
  by_cases hn : 2 ≤ items1.length
  · have hn2 : 2 ≤ items2.length := by rw [← hp.length_eq]; exact hn
    have hl1 := (seedKeys_spec E1 h1 items1 hn).1
    have hl2 := (seedKeys_spec E2 h2 items2 hn2).1
    have hagree := agreeUpTo_loop ((seedKeys E1 items1).length - 2) (seedKeys E1 items1)
      (seedKeys E2 items2) 2 (by omega) (by omega)
      (agreeUpTo_seed E1 E2 h1 h2 items1 items2 hp hn)
    have hk : (seedKeys E1 items1).length - 2 = (seedKeys E2 items2).length - 2 := by
      rw [hl1, hl2, hp.length_eq]
    rw [← calculate_keys_eq E1 items1 hn] at hagree
    rw [hk, ← calculate_keys_eq E2 items2 hn2] at hagree
    obtain ⟨hlen, hc, hkeys⟩ := hagree
    apply List.ext_getElem?
    intro a
    rw [List.getElem?_map, List.getElem?_map]
    by_cases ha : a < (calculate_keys E1 items1).length
    · have ha2 : a < (calculate_keys E2 items2).length := by omega
      have hca := count_getD_of_map hc a
      have hka := hkeys a (by
        rw [(calculate_keys_spec E1 h1 items1).1] at ha
        rw [hl2, ← hp.length_eq]
        omega)
      simp only [keyAt, List.getD_eq_getElem?_getD, List.getElem?_eq_getElem ha,
        List.getElem?_eq_getElem ha2, Option.getD_some] at hca hka
      simp only [List.getElem?_eq_getElem ha, List.getElem?_eq_getElem ha2, Option.map_some',
        countKey, hca, hka]
    · rw [List.getElem?_eq_none (by omega), List.getElem?_eq_none (by omega)]
  · have hlt : items1.length < 2 := by omega
    have hlt2 : items2.length < 2 := by rw [← hp.length_eq]; exact hlt
    have heq : items1 = items2 := by
      cases items1 with
      | nil => exact (List.Perm.nil_eq hp)
      | cons x xs =>
        cases xs with
        | nil => exact (List.perm_singleton.mp hp.symm).symm
        | cons y ys =>
          simp only [List.length_cons] at hlt
          omega
    simp only [calculate_keys, if_pos hlt, if_pos hlt2, heq]

/-! ## The length of the encoded bits -/

theorem bump_weight (g : wchar_t → Int) (x : wchar_t) (m : List (wchar_t × Int)) :
    ((bump x m).map (fun p => p.2 * g p.1)).sum = (m.map (fun p => p.2 * g p.1)).sum + g x := by
  induction m with
  | nil => simp [bump]
  | cons p rest ih =>
    obtain ⟨k, n⟩ := p
    by_cases hk : k = x
    · subst hk
      simp only [bump, if_true, List.map_cons, List.sum_cons]
      ring
    · simp only [bump, if_neg hk, List.map_cons, List.sum_cons, ih]
      ring

theorem countSyms_fold_weight (g : wchar_t → Int) :
    ∀ (input : List wchar_t) (acc : List (wchar_t × Int)),
      ((input.foldl (fun m ch => bump ch m) acc).map (fun p => p.2 * g p.1)).sum
        = (acc.map (fun p => p.2 * g p.1)).sum + (input.map g).sum
  | [], acc => by simp
  | x :: rest, acc => by
    simp only [List.foldl_cons, List.map_cons, List.sum_cons]
    rw [countSyms_fold_weight g rest (bump x acc), bump_weight]
    ring

/-- Without the character `0` in the input every entry of the table carries
the code that `data2bitfield` packs for its symbol. -/
theorem codeOf_unique (E : Env) (hE : E.Conforming) (X : List wchar_t)
    (h0 : (0 : wchar_t) ∉ X) :
    ∀ e ∈ calculate_keys E (read_text E X).2,
      e.key = codeOf (E.sort char_cmp (calculate_keys E (read_text E X).2)) e.ch := by
  intro e he
  have hnd : ((calculate_keys E (read_text E X).2).map (fun e => e.ch)).Nodup :=
    (calculate_keys_symbols E hE _).nodup_iff.mpr ((read_text_symbols E hE X).2 h0)
  have hin : e.ch ∈ X ∨ e.ch = 0 :=
    ((read_text_symbols E hE X).1 e.ch).mp
      ((calculate_keys_symbols E hE _).mem_iff.mp (List.mem_map_of_mem _ he))
  obtain ⟨e2, he2, hch, hkey⟩ := codeOf_mem (lookup_input E hE X e.ch hin)
  have he3 : e2 ∈ calculate_keys E (read_text E X).2 :=
    (hE.sort_perm char_cmp_strictWeak _).mem_iff.mp he2
  rw [← hkey, List.inj_on_of_nodup_map hnd he3 he hch]

theorem weightedLength_countKey (l : List item_t) :
    weightedLength l = ((l.map countKey).map (fun p => p.1 * (p.2.length : Int))).sum := by
  simp [weightedLength, List.map_map, Function.comp_def, countKey]

/-- Without the character `0` in the input, the number of bits that `encode`
packs is the sum over the table of count times code length. -/
theorem encode_length (E : Env) (hE : E.Conforming) (X : List wchar_t)
    (h0 : (0 : wchar_t) ∉ X) :
    ∃ items bits, encode E X = .ok (CONTROL_NUMBER, items, bits) ∧
      (bits.length : Int) = weightedLength (calculate_keys E (read_text E X).2) := by
  refine ⟨_, _, encode_ok E hE X, ?_⟩
  have huniq := codeOf_unique E hE X h0
  generalize hg : (fun t : wchar_t =>
    ((codeOf (E.sort char_cmp (calculate_keys E (read_text E X).2)) t).length : Int)) = g
  have hgt : ∀ t, ((codeOf (E.sort char_cmp (calculate_keys E (read_text E X).2)) t).length
      : Int) = g t := fun t => by rw [← hg]
  have hbits : ((((X ++ [0]).map (fun t =>
      keyBits (codeOf (E.sort char_cmp (calculate_keys E (read_text E X).2)) t))).flatten).length
        : Int) = (X.map g).sum + g 0 := by
    rw [List.length_flatten, List.map_map]
    have : ∀ ts : List wchar_t,
        (((ts.map ((List.length : List Bool → Nat) ∘ fun t =>
          keyBits (codeOf (E.sort char_cmp (calculate_keys E (read_text E X).2)) t))).sum : Nat)
            : Int) = (ts.map g).sum := by
      intro ts
      induction ts with
      | nil => simp
      | cons t ts ih =>
        simp only [List.map_cons, List.sum_cons, Function.comp_apply, Nat.cast_add, ih]
        rw [← hgt t]
        simp [keyBits]
    rw [this, List.map_append, List.sum_append]
    simp
  rw [hbits]
  have hw : weightedLength (calculate_keys E (read_text E X).2)
      = (((calculate_keys E (read_text E X).2).map symCount).map (fun p => p.2 * g p.1)).sum := by
    rw [weightedLength, List.map_map]
    congr 1
    apply List.map_congr_left
    intro e he
    simp only [Function.comp_apply, symCount]
    rw [huniq e he, hgt]
  rw [hw, ((calculate_keys_spec E hE (read_text E X).2).2.1.map _).sum_eq]
  have ht0 : (read_text E X).2.map symCount = E.iter (countSyms X) ++ [(0, 1)] := by
    simp [read_text, symCount, Function.comp_def]
  rw [ht0, List.map_append, List.sum_append, ((hE.iter_perm (countSyms X)).map _).sum_eq]
  have hcs := countSyms_fold_weight g X []
  simp only [List.map_nil, List.sum_nil, zero_add] at hcs
  rw [show countSyms X = X.foldl (fun m ch => bump ch m) [] from rfl, hcs]
  simp

theorem read_text_perm (E1 E2 : Env) (h1 : E1.Conforming) (h2 : E2.Conforming)
    (X : List wchar_t) : (read_text E1 X).2.Perm (read_text E2 X).2 := by
  simp only [read_text]
  exact List.Perm.append_right _
    (((h1.iter_perm _).trans (h2.iter_perm _).symm).map _)

/-- C20 (order independence), counterexample: for the input made of the
characters `0` and `A` the two conforming environments, which differ only in
the order the map is iterated, pack 5 bits and 4 bits. -/
theorem encoded_length_depends_on_order :
    Env.ref.Conforming ∧ Env.rev.Conforming ∧
    encode Env.ref [0, 65] =
      .ok (CONTROL_NUMBER, [⟨['0', '0'], 0, 1⟩, ⟨['0', '1'], 0, 1⟩, ⟨['1'], 65, 1⟩],
        [false, false, true, false, false]) ∧
    encode Env.rev [0, 65] =
      .ok (CONTROL_NUMBER, [⟨['1'], 0, 1⟩, ⟨['0', '1'], 0, 1⟩, ⟨['0', '0'], 65, 1⟩],
        [true, false, false, true]) :=
  ⟨Env.ref_conforming, Env.rev_conforming, rfl, rfl⟩

/-- C20 (order independence), amended: for any two tables that are
permutations of each other, and whatever the two sorts do with equal counts,
the sequences of (count, code) pairs after `calculate_keys` are identical
position by position; so for every input without the character `0` the
number of encoded bits does not depend on the order in which the map is
iterated nor on the tie-break of the sort. -/
theorem code_assignment_order_independent (E1 E2 : Env) (h1 : E1.Conforming)
    (h2 : E2.Conforming) :
    (∀ items1 items2 : List item_t, items1.Perm items2 →
      (calculate_keys E1 items1).map (fun e => (e.c, e.key))
        = (calculate_keys E2 items2).map (fun e => (e.c, e.key))) ∧
    (∀ X : List wchar_t, (0 : wchar_t) ∉ X →
      ∃ items1 bits1 items2 bits2,
        encode E1 X = .ok (CONTROL_NUMBER, items1, bits1) ∧
        encode E2 X = .ok (CONTROL_NUMBER, items2, bits2) ∧
        bits1.length = bits2.length) := by
  refine ⟨fun items1 items2 hp => calculate_keys_countKey E1 E2 h1 h2 items1 items2 hp,
    fun X h0 => ?_⟩
  obtain ⟨items1, bits1, he1, hl1⟩ := encode_length E1 h1 X h0
  obtain ⟨items2, bits2, he2, hl2⟩ := encode_length E2 h2 X h0
  refine ⟨items1, bits1, items2, bits2, he1, he2, ?_⟩
  have hck := calculate_keys_countKey E1 E2 h1 h2 _ _ (read_text_perm E1 E2 h1 h2 X)
  rw [weightedLength_countKey, hck, ← weightedLength_countKey, ← hl2] at hl1
  exact_mod_cast hl1

theorem code_assignment_order_independent_witness :
    Env.ref.Conforming ∧ Env.rev.Conforming ∧
    (∀ items1 items2 : List item_t, items1.Perm items2 →
      (calculate_keys Env.ref items1).map (fun e => (e.c, e.key))
        = (calculate_keys Env.rev items2).map (fun e => (e.c, e.key))) ∧
    (∀ X : List wchar_t, (0 : wchar_t) ∉ X →
      ∃ items1 bits1 items2 bits2,
        encode Env.ref X = .ok (CONTROL_NUMBER, items1, bits1) ∧
        encode Env.rev X = .ok (CONTROL_NUMBER, items2, bits2) ∧
        bits1.length = bits2.length) :=
  ⟨Env.ref_conforming, Env.rev_conforming,
    code_assignment_order_independent Env.ref Env.rev Env.ref_conforming Env.rev_conforming⟩

end Fano

namespace Rle

/-! ## `rle_decode` block by block -/

theorem decodeFrom_lit_full : ∀ (bs : List Nat) (n : Nat) (rest acc : List Nat),
    bs.length = n → 0 < n →
    decodeFrom (.lit n) (bs ++ rest) acc = decodeFrom .ctl rest (acc ++ bs)
  | [], n, _, _, h, h0 => by simp at h; omega
  | x :: bs, n, rest, acc, h, _ => by
    simp only [List.length_cons] at h
    simp only [List.cons_append, decodeFrom, List.append_eq]
    by_cases hn : n - 1 = 0
    · have hbs : bs = [] := List.eq_nil_of_length_eq_zero (by omega)
      subst hbs
      simp [hn]
    · rw [if_neg hn, decodeFrom_lit_full bs (n - 1) rest (acc ++ [x]) (by omega) (by omega)]
      simp

theorem decodeFrom_lit_short : ∀ (bs : List Nat) (n : Nat) (acc : List Nat),
    bs.length < n → decodeFrom (.lit n) bs acc = .error "Decode error"
  | [], _, _, _ => rfl
  | x :: bs, n, acc, h => by
    simp only [List.length_cons] at h
    simp only [decodeFrom]
    rw [if_neg (by omega)]
    exact decodeFrom_lit_short bs (n - 1) (acc ++ [x]) (by omega)

/-- Decoding one complete block appends what the block stands for. -/
theorem decodeFrom_block (b : Block) (hb : b.complete = true) (rest acc : List Nat) :
    decodeFrom .ctl (b.encoded ++ rest) acc = decodeFrom .ctl rest (acc ++ b.decoded) := by
  cases b with
  | run k c =>
    simp only [Block.complete, decide_eq_true_eq] at hb
    simp only [Block.encoded, Block.decoded, List.cons_append, List.nil_append, decodeFrom,
      List.append_eq]
    rw [if_pos (by omega), show (128 + k) % 128 = k by omega]
  | lit k bytes =>
    simp only [Block.complete, Bool.and_eq_true, decide_eq_true_eq] at hb
    simp only [Block.encoded, Block.decoded, List.cons_append, decodeFrom, List.append_eq]
    rw [if_neg (by omega), show k % 128 = k by omega]
    exact decodeFrom_lit_full bytes (k + 1) rest acc hb.2 (by omega)

theorem decodeFrom_blocks : ∀ (blocks : List Block), (∀ b ∈ blocks, b.complete = true) →
    ∀ (rest acc : List Nat),
      decodeFrom .ctl ((blocks.map Block.encoded).flatten ++ rest) acc
        = decodeFrom .ctl rest (acc ++ (blocks.map Block.decoded).flatten)
  | [], _, rest, acc => by simp
  | b :: blocks, h, rest, acc => by
    simp only [List.map_cons, List.flatten_cons, List.append_assoc]
    rw [decodeFrom_block b (h b (List.mem_cons_self _ _)),
      decodeFrom_blocks blocks (fun x hx => h x (List.mem_cons_of_mem _ hx)),
      List.append_assoc]

/-- A run of the decoder that returns has read whole blocks: what follows is
decoded from the state before a control byte. -/
theorem decodeFrom_append : ∀ (t : List Nat) (s : DecState) (acc out rest : List Nat),
    decodeFrom s t acc = .ok out → decodeFrom s (t ++ rest) acc = decodeFrom .ctl rest out
  | [], s, acc, out, rest, h => by
    cases s with
    | ctl =>
      simp only [decodeFrom, Except.ok.injEq] at h
      rw [h, List.nil_append]
    | run n => simp [decodeFrom] at h
    | lit n => simp [decodeFrom] at h
  | c :: t, s, acc, out, rest, h => by
    cases s with
    | ctl =>
      simp only [decodeFrom, List.cons_append, List.append_eq] at h ⊢
      split
      · rename_i hc
        rw [if_pos hc] at h
        exact decodeFrom_append t _ _ out rest h
      · rename_i hc
        rw [if_neg hc] at h
        exact decodeFrom_append t _ _ out rest h
    | run n =>
      simp only [decodeFrom, List.cons_append, List.append_eq] at h ⊢
      exact decodeFrom_append t _ _ out rest h
    | lit n =>
      simp only [decodeFrom, List.cons_append, List.append_eq] at h ⊢
      split
      · rename_i hc
        rw [if_pos hc] at h
        exact decodeFrom_append t _ _ out rest h
      · rename_i hc
        rw [if_neg hc] at h
        exact decodeFrom_append t _ _ out rest h

/-- C13 (control-byte format): starting from an empty target, `rle_decode` of
a concatenation of complete blocks returns the concatenation, block by block,
of `k + 2` copies of `c` for a control byte with top bit 1 and low bits `k`
followed by `c`, and of the `k + 1` literal bytes for a control byte with top
bit 0 and low bits `k`. -/
theorem rle_decode_blocks (blocks : List Block) (h : ∀ b ∈ blocks, b.complete = true) :
    rle_decode (blocks.map Block.encoded).flatten []
      = .ok (blocks.map Block.decoded).flatten := by
  have := decodeFrom_blocks blocks h [] []
  simpa [rle_decode, decodeFrom] using this

theorem rle_decode_blocks_witness :
    (∀ b ∈ [Block.run 2 65, Block.run 0 66, Block.lit 3 [67, 68, 67, 68]],
      b.complete = true) ∧
    rle_decode ([Block.run 2 65, Block.run 0 66, Block.lit 3 [67, 68, 67, 68]].map
        Block.encoded).flatten []
      = .ok ([Block.run 2 65, Block.run 0 66, Block.lit 3 [67, 68, 67, 68]].map
        Block.decoded).flatten :=
  ⟨by decide, rle_decode_blocks _ (by decide)⟩

/-! ## `rle_decode`: when it throws -/

/-- A sequence of bytes is either a concatenation of complete blocks, and is
decoded, or such a concatenation followed by an incomplete block, and the
decoder throws. -/
theorem decodeFrom_parse : ∀ (n : Nat) (src : List Nat), src.length ≤ n →
    (∀ x ∈ src, x < 256) → ∀ acc : List Nat,
    (∃ blocks : List Block, (∀ b ∈ blocks, b.complete = true) ∧
      src = (blocks.map Block.encoded).flatten ∧
      decodeFrom .ctl src acc = .ok (acc ++ (blocks.map Block.decoded).flatten)) ∨
    (∃ (blocks : List Block) (ctl : Nat) (rest : List Nat),
      (∀ b ∈ blocks, b.complete = true) ∧
      src = (blocks.map Block.encoded).flatten ++ ctl :: rest ∧
      ((128 ≤ ctl ∧ rest = []) ∨ (ctl < 128 ∧ rest.length < ctl + 1)) ∧
      decodeFrom .ctl src acc = .error "Decode error")
  | 0, src, hlen, _, acc => by
    have : src = [] := List.eq_nil_of_length_eq_zero (by omega)
    subst this
    exact Or.inl ⟨[], by simp, by simp, by simp [decodeFrom]⟩
  | n + 1, [], _, _, acc => Or.inl ⟨[], by simp, by simp, by simp [decodeFrom]⟩
  | n + 1, c :: rest, hlen, hb, acc => by
    have hc : c < 256 := hb c (List.mem_cons_self _ _)
    simp only [List.length_cons] at hlen
    have step : ∀ (b : Block) (rest2 : List Nat), b.complete = true →
        c :: rest = b.encoded ++ rest2 → rest2.length ≤ n →
        (∃ blocks : List Block, (∀ b ∈ blocks, b.complete = true) ∧
          c :: rest = (blocks.map Block.encoded).flatten ∧
          decodeFrom .ctl (c :: rest) acc = .ok (acc ++ (blocks.map Block.decoded).flatten)) ∨
        (∃ (blocks : List Block) (ctl : Nat) (rest3 : List Nat),
          (∀ b ∈ blocks, b.complete = true) ∧
          c :: rest = (blocks.map Block.encoded).flatten ++ ctl :: rest3 ∧
          ((128 ≤ ctl ∧ rest3 = []) ∨ (ctl < 128 ∧ rest3.length < ctl + 1)) ∧
          decodeFrom .ctl (c :: rest) acc = .error "Decode error") := by
      intro b rest2 hcomp hsrc hlen2
      have hb2 : ∀ x ∈ rest2, x < 256 := by
        intro x hx
        apply hb x
        rw [hsrc]
        exact List.mem_append_right _ hx
      rw [hsrc, decodeFrom_block b hcomp]
      rcases decodeFrom_parse n rest2 hlen2 hb2 (acc ++ b.decoded) with
        ⟨blocks, h1, h2, h3⟩ | ⟨blocks, ctl, rest3, h1, h2, h3, h4⟩
      · refine Or.inl ⟨b :: blocks, ?_, ?_, ?_⟩
        · intro x hx
          rcases List.mem_cons.mp hx with h | h
          · rw [h]; exact hcomp
          · exact h1 x h
        · rw [h2]; simp
        · rw [h3]; simp
      · refine Or.inr ⟨b :: blocks, ctl, rest3, ?_, ?_, h3, h4⟩
        · intro x hx
          rcases List.mem_cons.mp hx with h | h
          · rw [h]; exact hcomp
          · exact h1 x h
        · rw [h2]; simp
    by_cases hrun : 128 ≤ c
    · cases rest with
      | nil =>
        refine Or.inr ⟨[], c, [], by simp, by simp, Or.inl ⟨hrun, rfl⟩, ?_⟩
        simp only [decodeFrom]
        rw [if_pos (by omega)]
      | cons ch rest2 =>
        refine step (.run (c - 128) ch) rest2 (by simp [Block.complete]; omega) ?_
          (by simp only [List.length_cons] at hlen; omega)
        simp only [Block.encoded, List.cons_append, List.nil_append]
        rw [show 128 + (c - 128) = c by omega]
    · by_cases hshort : rest.length < c + 1
      · refine Or.inr ⟨[], c, rest, by simp, by simp, Or.inr ⟨by omega, hshort⟩, ?_⟩
        simp only [decodeFrom]
        rw [if_neg (by omega), show c % 128 = c by omega]
        exact decodeFrom_lit_short rest (c + 1) acc hshort
      · refine step (.lit c (rest.take (c + 1))) (rest.drop (c + 1)) ?_ ?_
          (by rw [List.length_drop]; omega)
        · simp only [Block.complete, Bool.and_eq_true, decide_eq_true_eq, List.length_take]
          omega
        · simp only [Block.encoded, List.cons_append, List.take_append_drop]

/-- C19 (incomplete blocks): for every byte sequence, `rle_decode` throws
"Decode error" exactly when the input is not a concatenation of complete
blocks, that is, when after some complete blocks it ends right after a
control byte with top bit 1, or has a control byte with top bit 0 and low
bits `k` followed by fewer than `k + 1` bytes; otherwise it returns
normally. -/
theorem rle_decode_error_iff (src : List Nat) (hb : ∀ x ∈ src, x < 256) :
    (rle_decode src [] = .error "Decode error" ↔
      ¬ ∃ blocks : List Block, (∀ b ∈ blocks, b.complete = true) ∧
        src = (blocks.map Block.encoded).flatten) ∧
    (rle_decode src [] = .error "Decode error" ↔
      ∃ (blocks : List Block) (ctl : Nat) (rest : List Nat),
        (∀ b ∈ blocks, b.complete = true) ∧
        src = (blocks.map Block.encoded).flatten ++ ctl :: rest ∧
        ((128 ≤ ctl ∧ rest = []) ∨ (ctl < 128 ∧ rest.length < ctl + 1))) ∧
    (rle_decode src [] = .error "Decode error" ∨ ∃ out, rle_decode src [] = .ok out) := by
  have hparse := decodeFrom_parse src.length src (Nat.le_refl _) hb []
  have hok : ∀ blocks : List Block, (∀ b ∈ blocks, b.complete = true) →
      src = (blocks.map Block.encoded).flatten →
      rle_decode src [] = .ok (blocks.map Block.decoded).flatten := by
    intro blocks h1 h2
    have := decodeFrom_blocks blocks h1 [] []
    rw [h2]
    simpa [rle_decode, decodeFrom] using this
  have herr : ∀ (blocks : List Block) (ctl : Nat) (rest : List Nat),
      (∀ b ∈ blocks, b.complete = true) →
      src = (blocks.map Block.encoded).flatten ++ ctl :: rest →
      ((128 ≤ ctl ∧ rest = []) ∨ (ctl < 128 ∧ rest.length < ctl + 1)) →
      rle_decode src [] = .error "Decode error" := by
    intro blocks ctl rest h1 h2 h3
    have hctl : ctl < 256 := hb ctl (by rw [h2]; simp)
    rw [rle_decode, h2, decodeFrom_blocks blocks h1]
    rcases h3 with ⟨h4, h5⟩ | ⟨h4, h5⟩
    · subst h5
      simp only [decodeFrom]
      rw [if_pos (by omega)]
    · simp only [decodeFrom]
      rw [if_neg (by omega), show ctl % 128 = ctl by omega]
      exact decodeFrom_lit_short rest (ctl + 1) _ h5
  refine ⟨⟨fun h hex => ?_, fun h => ?_⟩, ⟨fun h => ?_, fun h => ?_⟩, ?_⟩
  · obtain ⟨blocks, h1, h2⟩ := hex
    rw [hok blocks h1 h2] at h
    exact Except.noConfusion h
  · rcases hparse with ⟨blocks, h1, h2, _⟩ | ⟨_, _, _, _, _, _, h4⟩
    · exact absurd ⟨blocks, h1, h2⟩ h
    · exact h4
  · rcases hparse with ⟨blocks, h1, h2, _⟩ | ⟨blocks, ctl, rest, h1, h2, h3, _⟩
    · rw [hok blocks h1 h2] at h
      exact Except.noConfusion h
    · exact ⟨blocks, ctl, rest, h1, h2, h3⟩
  · obtain ⟨blocks, ctl, rest, h1, h2, h3⟩ := h
    exact herr blocks ctl rest h1 h2 h3
  · rcases hparse with ⟨blocks, h1, h2, _⟩ | ⟨_, _, _, _, _, _, h4⟩
    · exact Or.inr ⟨_, hok blocks h1 h2⟩
    · exact Or.inl h4

theorem rle_decode_error_iff_witness :
    (∀ x ∈ [0x82, 65, 0x01, 66], x < 256) ∧
    (rle_decode [0x82, 65, 0x01, 66] [] = .error "Decode error" ↔
      ¬ ∃ blocks : List Block, (∀ b ∈ blocks, b.complete = true) ∧
        [0x82, 65, 0x01, 66] = (blocks.map Block.encoded).flatten) ∧
    (rle_decode [0x82, 65, 0x01, 66] [] = .error "Decode error" ↔
      ∃ (blocks : List Block) (ctl : Nat) (rest : List Nat),
        (∀ b ∈ blocks, b.complete = true) ∧
        [0x82, 65, 0x01, 66] = (blocks.map Block.encoded).flatten ++ ctl :: rest ∧
        ((128 ≤ ctl ∧ rest = []) ∨ (ctl < 128 ∧ rest.length < ctl + 1))) ∧
    (rle_decode [0x82, 65, 0x01, 66] [] = .error "Decode error" ∨
      ∃ out, rle_decode [0x82, 65, 0x01, 66] [] = .ok out) :=
  ⟨by decide, rle_decode_error_iff [0x82, 65, 0x01, 66] (by decide)⟩

/-! ## `rle_encode`: what the pushed blocks decode to -/

theorem lor_128 : ∀ v, v < 128 → 128 ||| v = 128 + v := by
  decide

theorem toByte_of_small (z : Int) (h0 : 0 ≤ z) (h1 : z < 256) : toByte z = z.toNat := by
  unfold toByte
  omega

theorem decodeFrom_nil (acc : List Nat) : decodeFrom .ctl [] acc = .ok acc := rfl

theorem decode_snoc_run (t done : List Nat) (c ps : Nat) (h : rle_decode t [] = .ok done)
    (h2 : 2 ≤ c) (h3 : c ≤ 129) :
    rle_decode (t ++ [(128 ||| toByte ((c : Int) - 2)) % 256, ps]) []
      = .ok (done ++ List.replicate c ps) := by
  have hb : toByte ((c : Int) - 2) = c - 2 := by
    rw [toByte_of_small _ (by omega) (by omega)]
    omega
  rw [hb, lor_128 (c - 2) (by omega), show (128 + (c - 2)) % 256 = 128 + (c - 2) by omega]
  have hblock := decodeFrom_block (.run (c - 2) ps) (by simp [Block.complete]; omega) [] done
  rw [decodeFrom_nil] at hblock
  simp only [Block.encoded, Block.decoded, List.append_nil] at hblock
  rw [rle_decode, decodeFrom_append t .ctl [] done _ h, hblock,
    show c - 2 + 2 = c by omega]

theorem decode_snoc_lit (t done bs : List Nat) (h : rle_decode t [] = .ok done)
    (h1 : 1 ≤ bs.length) (h2 : bs.length ≤ 128) :
    rle_decode (t ++ [toByte ((bs.length : Int) - 1)] ++ bs) [] = .ok (done ++ bs) := by
  have hb : toByte ((bs.length : Int) - 1) = bs.length - 1 := by
    rw [toByte_of_small _ (by omega) (by omega)]
    omega
  have hblock := decodeFrom_block (.lit (bs.length - 1) bs)
    (by simp [Block.complete]; omega) [] done
  rw [decodeFrom_nil] at hblock
  simp only [Block.encoded, Block.decoded, List.append_nil] at hblock
  rw [hb, List.append_assoc, rle_decode, decodeFrom_append t .ctl [] done _ h]
  exact hblock

theorem drop_last_of_getLast? (l : List Nat) (a : Nat) (h : l.getLast? = some a) :
    l.drop (l.length - 1) = [a] := by
  rcases List.eq_nil_or_concat l with h1 | ⟨l2, b, h1⟩
  · subst h1
    simp at h
  · subst h1
    simp at h
    simp [h]

theorem copy_pending (done pending rest : List Nat) (k : Nat) (hk : k ≤ pending.length) :
    ((done ++ pending ++ rest).drop done.length).take k = pending.take k := by
  rw [List.append_assoc, List.drop_left, List.take_append_of_le_length hk]

/-! ## `rle_encode`: the exit of `case 'u'` -/

theorem emitLiteral_end (done pending rest : List Nat) (ps : Nat) (stg : Stage)
    (target : List Nat) :
    (emitLiteral (done ++ pending ++ rest) (done.length + pending.length) none
        ⟨ps, pending.length, stg, target⟩).target
      = target ++ [toByte ((pending.length : Int) - 1)] ++ pending := by
  have hstart : (((done.length + pending.length : Nat) : Int) - (pending.length : Int)
      - 0).toNat = done.length := by omega
  have hcopy := copy_pending done pending rest pending.length (Nat.le_refl _)
  rw [List.take_length] at hcopy
  simp only [emitLiteral, reduceCtorEq, if_false, true_or, if_true, hstart, Int.toNat_ofNat,
    hcopy]
  split <;> rfl

theorem emitLiteral_repeat (done pending rest : List Nat) (ps : Nat) (stg : Stage)
    (target : List Nat) (h2 : 2 ≤ pending.length) (h3 : pending.length ≤ 128) :
    emitLiteral (done ++ pending ++ rest) (done.length + pending.length) (some ps)
        ⟨ps, pending.length, stg, target⟩
      = ⟨ps, 2, .r,
          target ++ [toByte (((pending.take (pending.length - 1)).length : Int) - 1)]
            ++ pending.take (pending.length - 1)⟩ := by
  have hstart : (((done.length + pending.length : Nat) : Int) - ((pending.length : Int) - 1)
      - 1).toNat = done.length := by omega
  have hcount : ((pending.length : Int) - 1).toNat = pending.length - 1 := by omega
  have hne : ¬ ((pending.length : Int) - 1 = 128) := by omega
  have hlen : ((pending.take (pending.length - 1)).length : Int) = (pending.length : Int) - 1 := by
    rw [List.length_take]
    omega
  have hcopy := copy_pending done pending rest (pending.length - 1) (by omega)
  simp only [emitLiteral, if_true, reduceCtorEq, false_or, hne, if_false, hstart, hcount,
    hcopy, hlen]

theorem emitLiteral_full (done pending rest : List Nat) (ps x : Nat) (stg : Stage)
    (target : List Nat) (hx : x ≠ ps) (h : pending.length = 128) :
    emitLiteral (done ++ pending ++ rest) (done.length + pending.length) (some x)
        ⟨ps, pending.length, stg, target⟩
      = ⟨ps, 1, .start, target ++ [toByte ((pending.length : Int) - 1)] ++ pending⟩ := by
  have hstart : (((done.length + pending.length : Nat) : Int) - (pending.length : Int)
      - 0).toNat = done.length := by omega
  have hcopy := copy_pending done pending rest pending.length (Nat.le_refl _)
  rw [List.take_length] at hcopy
  have hxe : ¬ (some x = some ps) := by simpa using hx
  have h128 : (pending.length : Int) = 128 := by omega
  simp only [emitLiteral, hxe, if_false, h128, or_true, if_true] 
  rw [← h128, hstart, Int.toNat_ofNat, hcopy]

/-! ## `rle_encode`: the loop invariant -/

theorem encInv_step (src pre rest : List Nat) (x : Nat) (st : EncState)
    (h : EncInv src pre (x :: rest) st) :
    EncInv src (pre ++ [x]) rest (encStep src pre.length (some x) st) := by
  obtain ⟨hsrc, done, pending, hpre, hcount, hdec, hlast, hstage⟩ := h
  obtain ⟨ps, count, stage, target⟩ := st
  simp only at hcount hdec hlast hstage
  subst hpre
  subst hcount
  have hsrc2 : src = (done ++ pending ++ [x]) ++ rest := by simp [hsrc]
  have hsrc3 : src = done ++ pending ++ (x :: rest) := hsrc
  have hlastx : (pending ++ [x]).getLast? = some x := by simp
  have hlenx : (((pending ++ [x]).length : Nat) : Int) = (pending.length : Int) + 1 := by simp
  cases stage with
  | start =>
    simp only at hstage
    have hlen : pending.length = 1 := by omega
    have hp : pending = [ps] := by
      have := drop_last_of_getLast? pending ps hlast
      rwa [hlen, List.drop_zero] at this
    by_cases hx : x = ps
    · have hstep : encStep src (done ++ pending).length (some x)
          ⟨ps, pending.length, .start, target⟩ = ⟨x, (pending.length : Int) + 1, .r, target⟩ := by
        simp only [encStep]
        rw [if_pos hx]
      rw [hstep]
      refine ⟨hsrc2, done, pending ++ [x], by simp, hlenx, hdec, hlastx, ?_⟩
      dsimp only
      refine ⟨by omega, by omega, ?_⟩
      rw [hp, hx]
      rfl
    · have hstep : encStep src (done ++ pending).length (some x)
          ⟨ps, pending.length, .start, target⟩ = ⟨x, (pending.length : Int) + 1, .u, target⟩ := by
        simp only [encStep]
        rw [if_neg hx]
      rw [hstep]
      refine ⟨hsrc2, done, pending ++ [x], by simp, hlenx, hdec, hlastx, ?_⟩
      dsimp only
      omega
  | r =>
    simp only at hstage
    obtain ⟨h2, h129, hrep⟩ := hstage
    by_cases hx : x = ps ∧ (pending.length : Int) < 129
    · have hstep : encStep src (done ++ pending).length (some x)
          ⟨ps, pending.length, .r, target⟩ = ⟨x, (pending.length : Int) + 1, .r, target⟩ := by
        simp only [encStep]
        rw [if_pos hx]
      rw [hstep]
      refine ⟨hsrc2, done, pending ++ [x], by simp, hlenx, hdec, hlastx, ?_⟩
      dsimp only
      refine ⟨by omega, by omega, ?_⟩
      rw [List.length_append, List.length_singleton, List.replicate_succ', hx.1, ← hrep]
    · have hstep : encStep src (done ++ pending).length (some x)
          ⟨ps, pending.length, .r, target⟩
          = ⟨x, 1, .start,
            target ++ [(128 ||| toByte ((pending.length : Int) - 2)) % 256, ps]⟩ := by
        simp only [encStep]
        rw [if_neg hx]
        rfl
      rw [hstep]
      have hd := decode_snoc_run target done pending.length ps hdec (by omega) (by omega)
      rw [← hrep] at hd
      exact ⟨hsrc2, done ++ pending, [x], by simp, by simp, hd, by simp, rfl⟩
  | u =>
    simp only at hstage
    obtain ⟨h2, h128⟩ := hstage
    by_cases hx : x ≠ ps ∧ (pending.length : Int) < 128
    · have hstep : encStep src (done ++ pending).length (some x)
          ⟨ps, pending.length, .u, target⟩ = ⟨x, (pending.length : Int) + 1, .u, target⟩ := by
        simp only [encStep, caseU]
        rw [if_pos hx]
      rw [hstep]
      refine ⟨hsrc2, done, pending ++ [x], by simp, hlenx, hdec, hlastx, ?_⟩
      dsimp only
      omega
    · by_cases hxe : x = ps
      · subst hxe
        have hemit := emitLiteral_repeat done pending (x :: rest) x .u target
          (by omega) (by omega)
        rw [← hsrc3] at hemit
        have hstep : encStep src (done ++ pending).length (some x)
            ⟨x, pending.length, .u, target⟩
            = ⟨x, 2, .r,
              target ++ [toByte (((pending.take (pending.length - 1)).length : Int) - 1)]
                ++ pending.take (pending.length - 1)⟩ := by
          simp only [encStep, caseU]
          rw [if_neg hx, List.length_append, hemit]
        rw [hstep]
        have hdrop := drop_last_of_getLast? pending x hlast
        have hd := decode_snoc_lit target done (pending.take (pending.length - 1)) hdec
          (by rw [List.length_take]; omega) (by rw [List.length_take]; omega)
        refine ⟨hsrc2, done ++ pending.take (pending.length - 1),
          pending.drop (pending.length - 1) ++ [x], ?_, ?_, hd, by simp, ?_⟩
        · rw [List.append_assoc, List.append_assoc, ← List.append_assoc (pending.take _),
            List.take_append_drop]
        · rw [hdrop]
          rfl
        · dsimp only
          refine ⟨by omega, by omega, ?_⟩
          rw [hdrop]
          rfl
      · have hfull : pending.length = 128 := by
          have : ¬ ((pending.length : Int) < 128) := fun h => hx ⟨hxe, h⟩
          omega
        have hemit := emitLiteral_full done pending (x :: rest) ps x .u target hxe hfull
        rw [← hsrc3] at hemit
        have hstep : encStep src (done ++ pending).length (some x)
            ⟨ps, pending.length, .u, target⟩
            = ⟨x, 1, .start, target ++ [toByte ((pending.length : Int) - 1)] ++ pending⟩ := by
          simp only [encStep, caseU]
          rw [if_neg hx, List.length_append, hemit]
        rw [hstep]
        have hd := decode_snoc_lit target done pending hdec (by omega) (by omega)
        exact ⟨hsrc2, done ++ pending, [x], by simp, by simp, hd, by simp, rfl⟩

theorem encInv_final (src pre : List Nat) (st : EncState) (h : EncInv src pre [] st) :
    rle_decode (encStep src pre.length none st).target [] = .ok src := by
  obtain ⟨hsrc, done, pending, hpre, hcount, hdec, hlast, hstage⟩ := h
  obtain ⟨ps, count, stage, target⟩ := st
  simp only at hcount hdec hlast hstage
  subst hpre
  subst hcount
  have hsrc3 : src = done ++ pending ++ [] := hsrc
  have hsrc4 : src = done ++ pending := by simpa using hsrc
  cases stage with
  | start =>
    simp only at hstage
    have hemit := emitLiteral_end done pending [] ps .u target
    rw [← hsrc3] at hemit
    have hstep : (encStep src (done ++ pending).length none
        ⟨ps, pending.length, .start, target⟩).target
        = target ++ [toByte ((pending.length : Int) - 1)] ++ pending := by
      simp only [encStep, caseU]
      rw [List.length_append, hemit]
    rw [hstep, hsrc4]
    exact decode_snoc_lit target done pending hdec (by omega) (by omega)
  | r =>
    simp only at hstage
    obtain ⟨h2, h129, hrep⟩ := hstage
    have hstep : (encStep src (done ++ pending).length none
        ⟨ps, pending.length, .r, target⟩).target
        = target ++ [(128 ||| toByte ((pending.length : Int) - 2)) % 256, ps] := by
      simp only [encStep, emitRun]
    rw [hstep, hsrc4]
    have hd := decode_snoc_run target done pending.length ps hdec (by omega) (by omega)
    rw [← hrep] at hd
    exact hd
  | u =>
    simp only at hstage
    have hemit := emitLiteral_end done pending [] ps .u target
    rw [← hsrc3] at hemit
    have hstep : (encStep src (done ++ pending).length none
        ⟨ps, pending.length, .u, target⟩).target
        = target ++ [toByte ((pending.length : Int) - 1)] ++ pending := by
      simp only [encStep, caseU]
      rw [List.length_append, hemit]
    rw [hstep, hsrc4]
    exact decode_snoc_lit target done pending hdec (by omega) (by omega)

theorem encLoop_decodes (src : List Nat) : ∀ (rest pre : List Nat) (st : EncState),
    EncInv src pre rest st → rle_decode (encLoop src pre.length rest st).target [] = .ok src
  | [], pre, st, h => by
    simp only [encLoop]
    exact encInv_final src pre st h
  | x :: rest, pre, st, h => by
    simp only [encLoop]
    have := encLoop_decodes src rest (pre ++ [x]) _ (encInv_step src pre rest x st h)
    rwa [List.length_append, List.length_singleton] at this

/-- C17 (RLE round trip): for every byte sequence `x`, the empty one, runs
longer than 129 and literal spans longer than 128 included, `rle_decode`
applied to `rle_encode x` with an empty target raises no error and returns
exactly `x`. -/
theorem rle_round_trip (x : List Nat) : rle_decode (rle_encode x) [] = .ok x := by
  cases x with
  | nil => rfl
  | cons s0 rest =>
    have hinv : EncInv (s0 :: rest) [s0] rest ⟨s0, 1, .start, []⟩ :=
      ⟨rfl, [], [s0], rfl, rfl, rfl, rfl, rfl⟩
    exact encLoop_decodes (s0 :: rest) rest [s0] _ hinv

/-- C14 (documented example): `rle_encode` of the 10 bytes `AAAABBCDCD` is the
9 bytes `0x82 A 0x80 B 0x03 C D C D`. -/
theorem rle_encode_example :
    rle_encode [65, 65, 65, 65, 66, 66, 67, 68, 67, 68]
      = [0x82, 65, 0x80, 66, 0x03, 67, 68, 67, 68] := by
  decide

end Rle
